import Mathlib

/-!
# Verification of the mlsgpu out-of-core mesher

A shallow embedding of the mesher data structures and algorithms of
`src/src/mesh.cpp` (the `KeyMapMesh` / `BigMesh` / `StxxlMesh` family) and of
the `OOCMesher` interface declared in `src/unnamed/part_002` (`mesher.h`).

Modelling conventions:
* machine integers (`cl_uint`, `cl_ulong`, `std::size_t`, `uint64_t`) are
  modelled as `Nat`; overflow is made explicit where it matters;
* vertex coordinates (three `cl_float`s) are never inspected arithmetically by
  the mesher — they are only copied — so a vertex payload is modelled as an
  opaque `Nat` label;
* `std::tr1::unordered_map` insertion (`insert` returns the existing entry and
  does not overwrite) is modelled by an association list that appends only
  when the key is absent;
* `throw std::overflow_error` is modelled by `Except String`.
-/

namespace MLSGPU

/-- 64-bit key naming an external vertex (`cl_ulong`). -/
abbrev VertexKey := Nat

/-- A triangle: three vertex indices (`boost::array<cl_uint, 3>`). -/
abbrev Triangle := Nat × Nat × Nat

/-- The three vertex indices of a triangle, as a list. -/
def triVerts (t : Triangle) : List Nat := [t.1, t.2.1, t.2.2]

namespace UnionFind

/-- Modelled from the spec: `union_find.h` is not under `src/`.  §4.1 of the
spec describes a standard union-find forest with union-by-size (lower id wins
on ties, §4.5) and path compression.  Path compression never changes which
root an element maps to, so the forest is modelled extensionally: `root x` is
the canonical representative `findRoot` would return, and `size r` is the node
size stored at a root `r`. -/
structure Forest where
  root : Nat → Nat
  size : Nat → Nat

/-- A fresh forest: every element is its own root, sizes are 1
(a freshly constructed `UnionFind::Node`). -/
def Forest.start : Forest := ⟨fun x => x, fun _ => 1⟩

/-- `UnionFind::findRoot(nodes, x)`. -/
def findRoot (f : Forest) (x : Nat) : Nat := f.root x

/-- Two elements lie in the same tree of the forest. -/
def Forest.sameRoot (f : Forest) (a b : Nat) : Prop := f.root a = f.root b

instance (f : Forest) (a b : Nat) : Decidable (f.sameRoot a b) := by
  unfold Forest.sameRoot
  infer_instance

/-- Choose (winner, loser) roots for a union: union by size, the lower id
winning ties (spec §4.1, §4.5). -/
def pickRoots (f : Forest) (ra rb : Nat) : Nat × Nat :=
  if f.size rb < f.size ra then (ra, rb)
  else if f.size ra < f.size rb then (rb, ra)
  else if ra ≤ rb then (ra, rb) else (rb, ra)

/-- `UnionFind::merge(nodes, a, b)`: find both roots; if distinct, the losing
root is attached below the winning root, whose size becomes the sum. -/
def merge (f : Forest) (a b : Nat) : Forest :=
  let ra := f.root a
  let rb := f.root b
  if ra = rb then f
  else
    let wl := pickRoots f ra rb
    { root := fun x => if f.root x = wl.2 then wl.1 else f.root x
      size := fun x => if x = wl.1 then f.size ra + f.size rb else f.size x }

theorem pickRoots_cases (f : Forest) (ra rb : Nat) :
    pickRoots f ra rb = (ra, rb) ∨ pickRoots f ra rb = (rb, ra) := by
  unfold pickRoots
  split
  · exact Or.inl rfl
  · split
    · exact Or.inr rfl
    · split
      · exact Or.inl rfl
      · exact Or.inr rfl

theorem merge_of_eq {f : Forest} {a b : Nat} (h : f.root a = f.root b) :
    merge f a b = f := by
  simp [merge, h]

theorem merge_root_of_ne {f : Forest} {a b : Nat} (h : f.root a ≠ f.root b)
    (x : Nat) :
    (merge f a b).root x =
      if f.root x = (pickRoots f (f.root a) (f.root b)).2
      then (pickRoots f (f.root a) (f.root b)).1
      else f.root x := by
  simp [merge, h]

theorem merge_size_of_ne {f : Forest} {a b : Nat} (h : f.root a ≠ f.root b)
    (x : Nat) :
    (merge f a b).size x =
      if x = (pickRoots f (f.root a) (f.root b)).1
      then f.size (f.root a) + f.size (f.root b)
      else f.size x := by
  simp [merge, h]

theorem sameRoot_refl (f : Forest) (a : Nat) : f.sameRoot a a := rfl

theorem sameRoot_symm {f : Forest} {a b : Nat} (h : f.sameRoot a b) :
    f.sameRoot b a := h.symm

theorem sameRoot_trans {f : Forest} {a b c : Nat} (h₁ : f.sameRoot a b)
    (h₂ : f.sameRoot b c) : f.sameRoot a c := h₁.trans h₂

/-- Characterisation of connectivity after a union: `x` and `y` share a root
afterwards iff they did before, or they straddled the two merged trees. -/
theorem sameRoot_merge_iff (f : Forest) (a b x y : Nat) :
    (merge f a b).sameRoot x y ↔
      f.sameRoot x y ∨ (f.sameRoot x a ∧ f.sameRoot y b) ∨
        (f.sameRoot x b ∧ f.sameRoot y a) := by
  by_cases h : f.root a = f.root b
  · rw [merge_of_eq h]
    unfold Forest.sameRoot
    constructor
    · exact Or.inl
    · rintro (hxy | ⟨hx, hy⟩ | ⟨hx, hy⟩)
      · exact hxy
      · rw [hx, h, ← hy]
      · rw [hx, ← h, ← hy]
  · have hx := merge_root_of_ne h x
    have hy := merge_root_of_ne h y
    rcases pickRoots_cases f (f.root a) (f.root b) with hp | hp <;>
      rw [hp] at hx hy <;>
      unfold Forest.sameRoot <;>
      rw [hx, hy] <;>
      by_cases h1 : f.root x = f.root b <;>
      by_cases h2 : f.root y = f.root b <;>
      by_cases h3 : f.root x = f.root a <;>
      by_cases h4 : f.root y = f.root a <;>
      simp_all <;> omega

/-- Existing connectivity is never destroyed by a union. -/
theorem sameRoot_merge_mono {f : Forest} {x y : Nat} (a b : Nat)
    (h : f.sameRoot x y) : (merge f a b).sameRoot x y :=
  (sameRoot_merge_iff f a b x y).mpr (Or.inl h)

/-- A union connects its two arguments. -/
theorem sameRoot_merge_self (f : Forest) (a b : Nat) :
    (merge f a b).sameRoot a b :=
  (sameRoot_merge_iff f a b a b).mpr
    (Or.inr (Or.inl ⟨sameRoot_refl f a, sameRoot_refl f b⟩))

end UnionFind

open UnionFind

/-! ## Local connected components (`KeyMapMesh::computeLocalComponents`,
`src/src/mesh.cpp:472`)

For each triangle the code performs exactly the two unions
`(triangle[0], triangle[1])` and `(triangle[1], triangle[2])`; the third edge
is redundant for connectivity. -/

/-- The two unions performed for a single triangle
(`for j in 0..1: UnionFind::merge(nodes, triangle[j], triangle[j+1])`). -/
def localMergeStep (f : Forest) (t : Triangle) : Forest :=
  merge (merge f t.1 t.2.1) t.2.1 t.2.2

/-- The union-find forest after processing every triangle of a fragment
(the `nodes` array of `computeLocalComponents`). -/
def localForest (ts : List Triangle) : Forest :=
  ts.foldl localMergeStep Forest.start

/-- Reference adjacency: two vertices are adjacent iff they appear in a common
triangle. -/
def shareTri (ts : List Triangle) (u v : Nat) : Prop :=
  ∃ t ∈ ts, u ∈ triVerts t ∧ v ∈ triVerts t

theorem eqvGen_le {α : Type} {r p : α → α → Prop}
    (h : ∀ a b, r a b → Relation.EqvGen p a b) {x y : α}
    (hxy : Relation.EqvGen r x y) : Relation.EqvGen p x y := by
  induction hxy with
  | rel a b hab => exact h a b hab
  | refl a => exact Relation.EqvGen.refl a
  | symm a b _ ih => exact Relation.EqvGen.symm a b ih
  | trans a b c _ _ ih₁ ih₂ => exact Relation.EqvGen.trans a b c ih₁ ih₂

theorem eqvGen_sameRoot {f : Forest} {x y : Nat}
    (h : Relation.EqvGen f.sameRoot x y) : f.sameRoot x y := by
  induction h with
  | rel a b hab => exact hab
  | refl a => exact sameRoot_refl f a
  | symm a b _ ih => exact sameRoot_symm ih
  | trans a b c _ _ ih₁ ih₂ => exact sameRoot_trans ih₁ ih₂

theorem shareTri_mem {ts : List Triangle} {t : Triangle} (ht : t ∈ ts)
    {u v : Nat} (hu : u ∈ triVerts t) (hv : v ∈ triVerts t) :
    shareTri ts u v := ⟨t, ht, hu, hv⟩

/-- Within the forest after a triangle's two unions, all three of its vertices
share a root. -/
theorem localMergeStep_connects (f : Forest) (t : Triangle) :
    ∀ u ∈ triVerts t, ∀ v ∈ triVerts t,
      (localMergeStep f t).sameRoot u v := by
  have s12 : (localMergeStep f t).sameRoot t.1 t.2.1 :=
    sameRoot_merge_mono _ _ (sameRoot_merge_self f t.1 t.2.1)
  have s23 : (localMergeStep f t).sameRoot t.2.1 t.2.2 :=
    sameRoot_merge_self (merge f t.1 t.2.1) t.2.1 t.2.2
  intro u hu v hv
  simp only [triVerts, List.mem_cons, List.mem_singleton, List.not_mem_nil,
    or_false] at hu hv
  rcases hu with rfl | rfl | rfl <;> rcases hv with rfl | rfl | rfl
  · exact sameRoot_refl _ _
  · exact s12
  · exact sameRoot_trans s12 s23
  · exact sameRoot_symm s12
  · exact sameRoot_refl _ _
  · exact s23
  · exact sameRoot_symm (sameRoot_trans s12 s23)
  · exact sameRoot_symm s23
  · exact sameRoot_refl _ _

/-- Conversely, connectivity created by one triangle's unions is generated by
the base connectivity together with pairs drawn from that triangle. -/
theorem localMergeStep_sameRoot_gen (f : Forest) (t : Triangle) (u v : Nat)
    (h : (localMergeStep f t).sameRoot u v) :
    Relation.EqvGen
      (fun a b => f.sameRoot a b ∨ (a ∈ triVerts t ∧ b ∈ triVerts t)) u v := by
  set R := fun a b => f.sameRoot a b ∨ (a ∈ triVerts t ∧ b ∈ triVerts t)
    with hR
  have hsr : ∀ a b, f.sameRoot a b → Relation.EqvGen R a b := fun a b hab =>
    Relation.EqvGen.rel a b (Or.inl hab)
  have htri : ∀ a ∈ triVerts t, ∀ b ∈ triVerts t, Relation.EqvGen R a b :=
    fun a ha b hb => Relation.EqvGen.rel a b (Or.inr ⟨ha, hb⟩)
  have h1 : t.1 ∈ triVerts t := by simp [triVerts]
  have h2 : t.2.1 ∈ triVerts t := by simp [triVerts]
  have h3 : t.2.2 ∈ triVerts t := by simp [triVerts]
  have hm : ∀ a b, (merge f t.1 t.2.1).sameRoot a b →
      Relation.EqvGen R a b := by
    intro a b hab
    rcases (sameRoot_merge_iff f t.1 t.2.1 a b).mp hab with
      hab | ⟨ha, hb⟩ | ⟨ha, hb⟩
    · exact hsr a b hab
    · exact Relation.EqvGen.trans _ _ _ (hsr a t.1 ha)
        (Relation.EqvGen.trans _ _ _ (htri t.1 h1 t.2.1 h2)
          (Relation.EqvGen.symm _ _ (hsr b t.2.1 hb)))
    · exact Relation.EqvGen.trans _ _ _ (hsr a t.2.1 ha)
        (Relation.EqvGen.trans _ _ _
          (Relation.EqvGen.symm _ _ (htri t.1 h1 t.2.1 h2))
          (Relation.EqvGen.symm _ _ (hsr b t.1 hb)))
  rcases (sameRoot_merge_iff (merge f t.1 t.2.1) t.2.1 t.2.2 u v).mp h with
    huv | ⟨hu, hv⟩ | ⟨hu, hv⟩
  · exact hm u v huv
  · exact Relation.EqvGen.trans _ _ _ (hm u t.2.1 hu)
      (Relation.EqvGen.trans _ _ _ (htri t.2.1 h2 t.2.2 h3)
        (Relation.EqvGen.symm _ _ (hm v t.2.2 hv)))
  · exact Relation.EqvGen.trans _ _ _ (hm u t.2.2 hu)
      (Relation.EqvGen.trans _ _ _
        (Relation.EqvGen.symm _ _ (htri t.2.1 h2 t.2.2 h3))
        (Relation.EqvGen.symm _ _ (hm v t.2.1 hv)))

/-- Folding the per-triangle unions over a triangle list computes exactly the
equivalence generated by the base forest's connectivity plus triangle
adjacency. -/
theorem foldl_localMergeStep_sameRoot_iff (ts : List Triangle) :
    ∀ (f : Forest) (x y : Nat),
      (ts.foldl localMergeStep f).sameRoot x y ↔
        Relation.EqvGen
          (fun u v => f.sameRoot u v ∨ shareTri ts u v) x y := by
  induction ts with
  | nil =>
    intro f x y
    simp only [List.foldl_nil]
    constructor
    · intro h
      exact Relation.EqvGen.rel x y (Or.inl h)
    · intro h
      refine eqvGen_sameRoot (eqvGen_le ?_ h)
      rintro a b (hab | ⟨t, ht, -⟩)
      · exact Relation.EqvGen.rel a b hab
      · exact absurd ht (List.not_mem_nil t)
  | cons t ts ih =>
    intro f x y
    rw [List.foldl_cons, ih]
    constructor
    · refine eqvGen_le ?_
      rintro a b (hab | hab)
      · refine eqvGen_le ?_ (localMergeStep_sameRoot_gen f t a b hab)
        rintro c d (hcd | ⟨hc, hd⟩)
        · exact Relation.EqvGen.rel c d (Or.inl hcd)
        · exact Relation.EqvGen.rel c d
            (Or.inr (shareTri_mem (List.mem_cons_self t ts) hc hd))
      · obtain ⟨t', ht', hu, hv⟩ := hab
        exact Relation.EqvGen.rel a b
          (Or.inr (shareTri_mem (List.mem_cons_of_mem t ht') hu hv))
    · refine eqvGen_le ?_
      rintro a b (hab | ⟨t', ht', hu, hv⟩)
      · exact Relation.EqvGen.rel a b (Or.inl (sameRoot_merge_mono _ _
          (sameRoot_merge_mono _ _ hab)))
      · rcases List.mem_cons.mp ht' with rfl | ht'
        · exact Relation.EqvGen.rel a b
            (Or.inl (localMergeStep_connects f t' a hu b hv))
        · exact Relation.EqvGen.rel a b (Or.inr ⟨t', ht', hu, hv⟩)

/-! ## The global clump table

`mesh.cpp` keeps `std::vector<Clump> clumps`, where `Clump` derives from
`UnionFind::Node` and carries `vertices`/`triangles` counters that are valid
at roots and are summed into the winning root on merge
(`Clump::merge` in `src/unnamed/part_002:474`).  The table is modelled as the
union-find forest over clump ids plus the two counter maps and the current
number of allocated clumps. -/

structure Clumps where
  uf : Forest
  vert : Nat → Nat
  tri : Nat → Nat
  count : Nat

/-- The empty clump table. -/
def Clumps.start : Clumps := ⟨Forest.start, fun _ => 0, fun _ => 0, 0⟩

/-- `clumps.push_back(Clump(numVertices))`: a fresh clump with
`vertices == numVertices` and `triangles == 0`. -/
def Clumps.push (c : Clumps) (numVertices : Nat) : Clumps :=
  { c with
    vert := fun x => if x = c.count then numVertices else c.vert x
    count := c.count + 1 }

/-- `clumps[i].setVertices(v)`. -/
def Clumps.setVert (c : Clumps) (i v : Nat) : Clumps :=
  { c with vert := fun x => if x = i then v else c.vert x }

/-- `clumps[i].setTriangles(v)`. -/
def Clumps.setTri (c : Clumps) (i v : Nat) : Clumps :=
  { c with tri := fun x => if x = i then v else c.tri x }

/-- `UnionFind::merge(clumps, a, b)` where the element type is `Clump`:
the union-find merge, with the loser root's `vertices`/`triangles` counters
added into the winner's (`Clump::merge`). -/
def Clumps.mergeClumps (c : Clumps) (a b : Nat) : Clumps :=
  let ra := c.uf.root a
  let rb := c.uf.root b
  if ra = rb then c
  else
    let wl := pickRoots c.uf ra rb
    { uf := merge c.uf a b
      vert := fun x => if x = wl.1 then c.vert ra + c.vert rb else c.vert x
      tri := fun x => if x = wl.1 then c.tri ra + c.tri rb else c.tri x
      count := c.count }

theorem mergeClumps_uf (c : Clumps) (a b : Nat) :
    (c.mergeClumps a b).uf = merge c.uf a b := by
  by_cases h : c.uf.root a = c.uf.root b
  · simp [Clumps.mergeClumps, h, merge_of_eq h]
  · simp [Clumps.mergeClumps, h]

theorem mergeClumps_count (c : Clumps) (a b : Nat) :
    (c.mergeClumps a b).count = c.count := by
  by_cases h : c.uf.root a = c.uf.root b
  · simp [Clumps.mergeClumps, h]
  · simp [Clumps.mergeClumps, h]

/-! ## `KeyMapMesh::computeLocalComponents` (`src/src/mesh.cpp:472`)

After the union-find pass, the code walks the vertices in index order; at
each root it allocates a fresh global clump (guarded against `clump_id`
overflow) whose `vertices` counter is the local tree size; a second pass maps
every vertex to the clump of its root; a third pass counts each triangle into
the clump of its first vertex. -/

/-- `std::numeric_limits<clump_id>::max()` for `clump_id = int32_t`. -/
def INT32_MAX : Nat := 2147483647

/-- The overflow guard of `computeLocalComponents`:
`clumps.size() > std::numeric_limits<clump_id>::max()`. -/
def tooManyClumps (numClumps : Nat) : Bool := decide (INT32_MAX < numClumps)

/-- The clump-allocation pass: walk the vertex indices; at each root of
`nodes`, check the overflow guard (`throw std::overflow_error("Too many
clumps")`), record `clumpId[i] = clumps.size()` and push a clump of the local
tree size. -/
def allocClumpsAux (nodes : Forest) :
    List Nat → Clumps → (Nat → Nat) → Except String (Clumps × (Nat → Nat))
  | [], c, f => .ok (c, f)
  | i :: is, c, f =>
    if nodes.root i = i then
      if tooManyClumps c.count then .error "Too many clumps"
      else
        allocClumpsAux nodes is (c.push (nodes.size i))
          (fun x => if x = i then c.count else f x)
    else allocClumpsAux nodes is c f

/-- The triangle-counting pass:
`clumps[clumpId[triangle[0]]].setTriangles(triangles() + 1)` for each
triangle. -/
def countClumpTriangles (cid : Nat → Nat) (c : Clumps) (ts : List Triangle) :
    Clumps :=
  ts.foldl (fun cc t => cc.setTri (cid t.1) (cc.tri (cid t.1) + 1)) c

/-- `KeyMapMesh::computeLocalComponents`: build the local union-find from the
triangles, allocate global clumps for the local roots, derive every vertex's
clump id from its root's, and count triangles per clump.  Returns the updated
clump table and the `clumpId` assignment. -/
def computeLocalComponents (numVertices : Nat) (ts : List Triangle)
    (c : Clumps) : Except String (Clumps × (Nat → Nat)) :=
  let nodes := localForest ts
  match allocClumpsAux nodes (List.range numVertices) c (fun _ => 0) with
  | .error e => .error e
  | .ok (c', froot) =>
    let cid := fun i => froot (nodes.root i)
    .ok (countClumpTriangles cid c' ts, cid)

/-- **C1.** For any set of triangles ingested as a single fragment, the local
connected components computed by the union-find of
`computeLocalComponents` — which performs, for each triangle `(a,b,c)`,
exactly the two unions `(a,b)` and `(b,c)` — are equal to the connected
components of the reference triangle-adjacency graph in which two vertices
are connected iff they share a triangle. -/
theorem C1_local_components_match_adjacency (ts : List Triangle) (x y : Nat) :
    (localForest ts).sameRoot x y ↔ Relation.EqvGen (shareTri ts) x y := by
  rw [localForest, foldl_localMergeStep_sameRoot_iff]
  constructor
  · refine eqvGen_le ?_
    rintro a b (hab | hab)
    · have : a = b := hab
      exact this ▸ Relation.EqvGen.refl a
    · exact Relation.EqvGen.rel a b hab
  · refine eqvGen_le ?_
    intro a b hab
    exact Relation.EqvGen.rel a b (Or.inr hab)

/-! ## The clump-count overflow guard (claim C8) -/

/-- Number of local roots (local connected components, isolated vertices
included) among the first `n` vertex indices. -/
def numLocalRoots (nodes : Forest) (n : Nat) : Nat :=
  (List.range n).countP (fun i => decide (nodes.root i = i))

theorem countP_cons_of_pos {i : Nat} {is : List Nat} {p : Nat → Bool}
    (h : p i = true) : (i :: is).countP p = is.countP p + 1 := by
  simp [List.countP_cons, h]

theorem countP_cons_of_neg {i : Nat} {is : List Nat} {p : Nat → Bool}
    (h : p i = false) : (i :: is).countP p = is.countP p := by
  simp [List.countP_cons, h]

theorem allocClumpsAux_ok_count (nodes : Forest) (L : List Nat) :
    ∀ (c : Clumps) (f : Nat → Nat) (c' : Clumps) (f' : Nat → Nat),
      allocClumpsAux nodes L c f = .ok (c', f') →
      c'.count = c.count + L.countP (fun i => decide (nodes.root i = i)) := by
  induction L with
  | nil =>
    intro c f c' f' h
    simp only [allocClumpsAux, Except.ok.injEq, Prod.mk.injEq] at h
    rw [← h.1]
    simp
  | cons i is ih =>
    intro c f c' f' h
    simp only [allocClumpsAux] at h
    by_cases hr : nodes.root i = i
    · rw [if_pos hr] at h
      by_cases hg : tooManyClumps c.count
      · rw [if_pos hg] at h
        exact absurd h (by simp)
      · rw [if_neg hg] at h
        have := ih _ _ _ _ h
        simp only [Clumps.push] at this
        rw [countP_cons_of_pos (by simp [hr])]
        omega
    · rw [if_neg hr] at h
      have := ih _ _ _ _ h
      rw [countP_cons_of_neg (by simp [hr])]
      omega

theorem allocClumpsAux_isError_iff (nodes : Forest) (L : List Nat) :
    ∀ (c : Clumps) (f : Nat → Nat),
      (∃ e, allocClumpsAux nodes L c f = .error e) ↔
        1 ≤ L.countP (fun i => decide (nodes.root i = i)) ∧
          INT32_MAX + 1 < c.count +
            L.countP (fun i => decide (nodes.root i = i)) := by
  induction L with
  | nil =>
    intro c f
    simp [allocClumpsAux]
  | cons i is ih =>
    intro c f
    simp only [allocClumpsAux]
    by_cases hr : nodes.root i = i
    · rw [if_pos hr]
      by_cases hg : tooManyClumps c.count
      · rw [if_pos hg]
        have hguard : INT32_MAX < c.count := by
          simpa [tooManyClumps] using hg
        rw [countP_cons_of_pos (by simp [hr])]
        constructor
        · intro _
          omega
        · intro _
          exact ⟨"Too many clumps", rfl⟩
      · rw [if_neg hg]
        have hguard : ¬ INT32_MAX < c.count := by
          simpa [tooManyClumps] using hg
        rw [ih, countP_cons_of_pos (by simp [hr])]
        simp only [Clumps.push]
        omega
    · rw [if_neg hr, ih, countP_cons_of_neg (by simp [hr])]

theorem countClumpTriangles_count (cid : Nat → Nat) (ts : List Triangle) :
    ∀ c : Clumps, (countClumpTriangles cid c ts).count = c.count := by
  induction ts with
  | nil => intro c; rfl
  | cons t ts ih =>
    intro c
    rw [countClumpTriangles, List.foldl_cons]
    exact ih _

/-- **C8, counterexample.**  The claim says an allocation that would push the
global clump count beyond `INT32_MAX` is refused.  With the clump count
already at `INT32_MAX` and one local root to allocate, the guard
(`clumps.size() > numeric_limits<clump_id>::max()`) does not fire: the
allocation succeeds and the count becomes `INT32_MAX + 1 > INT32_MAX`. -/
theorem C8_counterexample :
    tooManyClumps INT32_MAX = false ∧
      (allocClumpsAux Forest.start [0]
          { Clumps.start with count := INT32_MAX } (fun _ => 0)).map
          (fun p => p.1.count) = .ok (INT32_MAX + 1) ∧
      INT32_MAX < INT32_MAX + 1 := by
  refine ⟨by decide, rfl, by omega⟩

/-- **C8, amended.**  `computeLocalComponents` raises the overflow condition
as an error (`throw std::overflow_error("Too many clumps")`, modelled as
`Except.error`) exactly when some clump allocation happens while the clump
count already exceeds `INT32_MAX`; equivalently, it fails iff the final count
would exceed `INT32_MAX + 1`.  Consequently the clump count may legitimately
reach `INT32_MAX + 1` (the last id handed out being `INT32_MAX`), one past
the boundary stated in the claim, and on every successful path the count
stays at most `INT32_MAX + 1`.  Whether the error aborts the process or is
caught by a caller is outside the embedding. -/
theorem C8_amended (n : Nat) (ts : List Triangle) (c : Clumps)
    (hc : c.count ≤ INT32_MAX + 1) :
    ((∃ e, computeLocalComponents n ts c = .error e) ↔
      1 ≤ numLocalRoots (localForest ts) n ∧
        INT32_MAX + 1 < c.count + numLocalRoots (localForest ts) n) ∧
    (∀ c' cid, computeLocalComponents n ts c = .ok (c', cid) →
      c'.count ≤ INT32_MAX + 1) := by
  have hiff := allocClumpsAux_isError_iff (localForest ts) (List.range n) c
    (fun _ => 0)
  rcases halloc : allocClumpsAux (localForest ts) (List.range n) c
      (fun _ => 0) with e | ⟨c1, froot⟩
  · have hcc : computeLocalComponents n ts c = .error e := by
      simp only [computeLocalComponents, halloc]
    have herr : 1 ≤ numLocalRoots (localForest ts) n ∧
        INT32_MAX + 1 < c.count + numLocalRoots (localForest ts) n := by
      simp only [numLocalRoots]
      exact hiff.mp ⟨e, halloc⟩
    refine ⟨⟨fun _ => herr, fun _ => ⟨e, hcc⟩⟩, ?_⟩
    intro c' cid h
    rw [hcc] at h
    exact absurd h (by simp)
  · have hcc : computeLocalComponents n ts c =
        .ok (countClumpTriangles (fun i => froot ((localForest ts).root i))
          c1 ts, fun i => froot ((localForest ts).root i)) := by
      simp only [computeLocalComponents, halloc]
    have hnoerr : ¬ (1 ≤ numLocalRoots (localForest ts) n ∧
        INT32_MAX + 1 < c.count + numLocalRoots (localForest ts) n) := by
      simp only [numLocalRoots]
      rw [← hiff]
      rintro ⟨e, he⟩
      rw [halloc] at he
      exact absurd he (by simp)
    have hcount := allocClumpsAux_ok_count (localForest ts) (List.range n)
      c (fun _ => 0) c1 froot halloc
    constructor
    · rw [hcc]
      refine ⟨?_, fun hcontra => absurd hcontra hnoerr⟩
      rintro ⟨e, he⟩
      exact absurd he (by simp)
    · intro c' cid h
      rw [hcc] at h
      simp only [Except.ok.injEq, Prod.mk.injEq] at h
      rw [← h.1, countClumpTriangles_count]
      simp only [numLocalRoots] at hnoerr
      omega

/-- Witness for `C8_amended` at a concrete input: one vertex, no triangles,
empty clump table — allocation succeeds and the count becomes 1. -/
theorem C8_amended_witness :
    Clumps.start.count ≤ INT32_MAX + 1 ∧
      ¬ (∃ e, computeLocalComponents 1 [] Clumps.start = .error e) := by
  have h := C8_amended 1 [] Clumps.start (by decide)
  refine ⟨by decide, ?_⟩
  rw [h.1]
  intro hcontra
  have : INT32_MAX + 1 < 0 + numLocalRoots (localForest []) 1 := hcontra.2
  have hroots : numLocalRoots (localForest []) 1 = 1 := by decide
  omega

/-! ## `KeyMapMesh::updateKeyMap` (`src/src/mesh.cpp:518`)

The global key map `keyMap : unordered_map<cl_ulong, ExternalVertexData>` is
modelled as an association list to which a binding is appended only when the
key is absent (`unordered_map::insert` keeps the existing entry). -/

/-- `KeyMapMesh::ExternalVertexData`: the vertex id handed out for a key and
the clump the key was first seen in. -/
structure ExternalVertexData where
  vertexId : Nat
  clumpId : Nat
deriving DecidableEq

/-- The global key map. -/
abbrev KeyMap := List (VertexKey × ExternalVertexData)

/-- `keyMap.find(key)`. -/
def lookupKey : KeyMap → VertexKey → Option ExternalVertexData
  | [], _ => none
  | (k, d) :: m, key => if key = k then some d else lookupKey m key

/-- The state produced by `updateKeyMap`: the updated clump table and key
map, the number of new keys, and the index table for the fragment's external
vertices. -/
structure KeyMapResult where
  clumps : Clumps
  keyMap : KeyMap
  newKeys : Nat
  indexTable : List Nat

/-- One pass of `updateKeyMap`'s loop body per remaining external vertex.
For external vertex `i` with key `k` and clump `cid(numInternal + i)`:
if the key is new, insert `(k, ExternalVertexData(vertexOffset + newKeys,
cid))`; otherwise union the two clumps and decrement the (post-merge) root's
`vertices` counter by one.  Either way record the map entry's `vertexId` in
the index table. -/
def updateKeyMapAux (vertexOffset numInternal : Nat) (cid : Nat → Nat) :
    Nat → List VertexKey → Clumps → KeyMap → Nat → List Nat → KeyMapResult
  | _, [], c, km, nk, tbl => ⟨c, km, nk, tbl⟩
  | i, k :: ks, c, km, nk, tbl =>
    match lookupKey km k with
    | none =>
        updateKeyMapAux vertexOffset numInternal cid (i + 1) ks c
          (km ++ [(k, ⟨vertexOffset + nk, cid (numInternal + i)⟩)])
          (nk + 1) (tbl ++ [vertexOffset + nk])
    | some ed =>
        let c1 := c.mergeClumps (cid (numInternal + i)) ed.clumpId
        let r := c1.uf.root (cid (numInternal + i))
        updateKeyMapAux vertexOffset numInternal cid (i + 1) ks
          (c1.setVert r (c1.vert r - 1)) km nk (tbl ++ [ed.vertexId])

/-- `KeyMapMesh::updateKeyMap`. -/
def updateKeyMap (vertexOffset numInternal : Nat) (cid : Nat → Nat)
    (keys : List VertexKey) (c : Clumps) (km : KeyMap) : KeyMapResult :=
  updateKeyMapAux vertexOffset numInternal cid 0 keys c km 0 []

theorem updateKeyMapAux_append (vertexOffset numInternal : Nat)
    (cid : Nat → Nat) (ks₁ ks₂ : List VertexKey) :
    ∀ (i : Nat) (c : Clumps) (km : KeyMap) (nk : Nat) (tbl : List Nat),
      updateKeyMapAux vertexOffset numInternal cid i (ks₁ ++ ks₂) c km nk tbl
        = (fun s : KeyMapResult =>
            updateKeyMapAux vertexOffset numInternal cid (i + ks₁.length)
              ks₂ s.clumps s.keyMap s.newKeys s.indexTable)
          (updateKeyMapAux vertexOffset numInternal cid i ks₁ c km nk tbl) := by
  induction ks₁ with
  | nil =>
    intro i c km nk tbl
    simp [updateKeyMapAux]
  | cons k ks ih =>
    intro i c km nk tbl
    have harith : i + 1 + ks.length = i + (ks.length + 1) := by omega
    rcases hlk : lookupKey km k with _ | ed <;>
      simp only [List.cons_append, updateKeyMapAux, hlk, List.length_cons,
        List.append_eq] <;>
      rw [ih, harith]

/-! ## Claim C4: the duplicate-key decrement -/

/-- The clump table after `computeLocalComponents` on the C4 scenario
fragment: one internal vertex `0` and two external vertices `1`, `2`
carrying the same key, all tied together by the single triangle `(0,1,2)`. -/
def dupKeyClumps : Clumps :=
  match computeLocalComponents 3 [(0, 1, 2)] Clumps.start with
  | .error _ => Clumps.start
  | .ok (c, _) => c

/-- The clump-id assignment for the C4 scenario fragment. -/
def dupKeyCid : Nat → Nat :=
  match computeLocalComponents 3 [(0, 1, 2)] Clumps.start with
  | .error _ => fun _ => 0
  | .ok (_, cid) => cid

/-- **C4, counterexample.**  Processing the first external vertex (key 7)
inserts the key; at the second external vertex with the same key the vertex's
clump and the stored clump are one and the same union-find tree (root 0 on
both sides), so no true merge is possible — yet the root's `vertices` counter
drops from 3 to 2.  The decrement is unconditional, contradicting the claim
that the counter is left unchanged when the clumps already share a root. -/
theorem C4_counterexample :
    lookupKey (updateKeyMap 1 1 dupKeyCid [7] dupKeyClumps []).keyMap 7
        = some ⟨1, 0⟩ ∧
      (updateKeyMap 1 1 dupKeyCid [7] dupKeyClumps []).clumps.uf.root
          (dupKeyCid 2)
        = (updateKeyMap 1 1 dupKeyCid [7] dupKeyClumps []).clumps.uf.root 0 ∧
      (updateKeyMap 1 1 dupKeyCid [7] dupKeyClumps []).clumps.vert
          ((updateKeyMap 1 1 dupKeyCid [7] dupKeyClumps []).clumps.uf.root
            (dupKeyCid 2)) = 3 ∧
      (updateKeyMap 1 1 dupKeyCid [7, 7] dupKeyClumps []).clumps.vert
          ((updateKeyMap 1 1 dupKeyCid [7, 7] dupKeyClumps []).clumps.uf.root
            (dupKeyCid 2)) = 2 := by
  refine ⟨rfl, rfl, rfl, rfl⟩

/-- **C4, amended.**  For every external vertex whose key is already present
in the global key map, the mesher unions the existing clump with the vertex's
clump and then decrements the resulting root's `vertices` counter by one
*unconditionally* — on every duplicate-key occurrence, whether or not the two
clumps were previously distinct trees — and allocates no new key. -/
theorem C4_amended (vertexOffset numInternal : Nat) (cid : Nat → Nat)
    (ks : List VertexKey) (k : VertexKey) (c : Clumps) (km : KeyMap)
    (ed : ExternalVertexData)
    (hdup : lookupKey
      (updateKeyMap vertexOffset numInternal cid ks c km).keyMap k
        = some ed) :
    (updateKeyMap vertexOffset numInternal cid (ks ++ [k]) c km).clumps.vert
        (((updateKeyMap vertexOffset numInternal cid ks c km).clumps.mergeClumps
            (cid (numInternal + ks.length)) ed.clumpId).uf.root
          (cid (numInternal + ks.length)))
      = ((updateKeyMap vertexOffset numInternal cid ks c km).clumps.mergeClumps
            (cid (numInternal + ks.length)) ed.clumpId).vert
          (((updateKeyMap vertexOffset numInternal cid ks c
              km).clumps.mergeClumps
              (cid (numInternal + ks.length)) ed.clumpId).uf.root
            (cid (numInternal + ks.length))) - 1 ∧
    (updateKeyMap vertexOffset numInternal cid (ks ++ [k]) c km).newKeys
      = (updateKeyMap vertexOffset numInternal cid ks c km).newKeys := by
  unfold updateKeyMap at *
  rw [updateKeyMapAux_append]
  simp only [Nat.zero_add]
  simp only [updateKeyMapAux, hdup]
  refine ⟨?_, ?_⟩ <;> simp [Clumps.setVert]

/-- Witness for `C4_amended` on the C4 scenario: appending the duplicate
occurrence of key 7 decrements the root's counter by one. -/
theorem C4_amended_witness :
    lookupKey (updateKeyMap 1 1 dupKeyCid [7] dupKeyClumps []).keyMap 7
        = some ⟨1, 0⟩ ∧
      ((updateKeyMap 1 1 dupKeyCid ([7] ++ [7]) dupKeyClumps []).clumps.vert
          (((updateKeyMap 1 1 dupKeyCid [7] dupKeyClumps
              []).clumps.mergeClumps (dupKeyCid (1 + 1)) (0 : Nat)).uf.root
            (dupKeyCid (1 + 1)))
        = ((updateKeyMap 1 1 dupKeyCid [7] dupKeyClumps
              []).clumps.mergeClumps (dupKeyCid (1 + 1)) (0 : Nat)).vert
            (((updateKeyMap 1 1 dupKeyCid [7] dupKeyClumps
                []).clumps.mergeClumps (dupKeyCid (1 + 1)) (0 : Nat)).uf.root
              (dupKeyCid (1 + 1))) - 1 ∧
        (updateKeyMap 1 1 dupKeyCid ([7] ++ [7]) dupKeyClumps []).newKeys
          = (updateKeyMap 1 1 dupKeyCid [7] dupKeyClumps []).newKeys) := by
  have hdup : lookupKey
      (updateKeyMap 1 1 dupKeyCid [7] dupKeyClumps []).keyMap 7
        = some ⟨1, 0⟩ := rfl
  exact ⟨hdup, C4_amended 1 1 dupKeyCid [7] 7 dupKeyClumps [] ⟨1, 0⟩ hdup⟩

/-! ## Fragments and the `StxxlMesh` ingest pipeline (`src/src/mesh.cpp:746`)

A mesh fragment as delivered to `StxxlMesh::add`: the first
`numInternalVertices` vertices are private, the remainder are external and
carry keys (`vertexKeys` aligned to the external suffix).  Vertex payloads
are opaque labels. -/

structure Fragment where
  numInternal : Nat
  vertices : List Nat
  keys : List VertexKey
  triangles : List Triangle

/-- `numVertices` as passed to the output functor. -/
def Fragment.numVertices (f : Fragment) : Nat := f.numInternal + f.keys.length

/-- All triangle indices are in range (`BadFragment` is never raised; the
producer is trusted, spec §7). -/
def Fragment.valid (f : Fragment) : Prop :=
  ∀ t ∈ f.triangles,
    t.1 < f.numVertices ∧ t.2.1 < f.numVertices ∧ t.2.2 < f.numVertices

/-- `KeyMapMesh::rewriteTriangles` (`src/src/mesh.cpp:552`) on one index:
internal indices are biased by `priorVertices`, external ones are replaced by
their entry in the index table. -/
def rewriteIndex (priorVertices numInternal : Nat) (tbl : List Nat)
    (i : Nat) : Nat :=
  if i < numInternal then priorVertices + i else tbl.getD (i - numInternal) 0

/-- `KeyMapMesh::rewriteTriangles`. -/
def rewriteTriangles (priorVertices numInternal : Nat) (tbl : List Nat)
    (ts : List Triangle) : List Triangle :=
  ts.map fun t =>
    (rewriteIndex priorVertices numInternal tbl t.1,
     rewriteIndex priorVertices numInternal tbl t.2.1,
     rewriteIndex priorVertices numInternal tbl t.2.2)

/-- The state of a `StxxlMesh`: the accumulated `(vertex, clumpId)` records,
the accumulated rewritten triangles, the global clump table and key map. -/
structure StxxlMesh where
  vertices : List (Nat × Nat)
  triangles : List Triangle
  clumps : Clumps
  keyMap : KeyMap

/-- A freshly constructed `StxxlMesh`. -/
def StxxlMesh.start : StxxlMesh := ⟨[], [], Clumps.start, []⟩

/-- The external-vertex copy loop of `StxxlMesh::add`: external vertex `i` is
appended exactly when its assigned id equals the current vertex-store size
(`pos == this->vertices.size()`), i.e. when it was a new key of this
fragment. -/
def copyExternals (f : Fragment) (cid : Nat → Nat) (tbl : List Nat)
    (vs : List (Nat × Nat)) : List (Nat × Nat) :=
  (List.range f.keys.length).foldl
    (fun vs i =>
      if tbl.getD i 0 = vs.length
      then vs ++ [(f.vertices.getD (f.numInternal + i) 0,
                   cid (f.numInternal + i))]
      else vs)
    vs

/-- `StxxlMesh::add`: local components, key-map update and welding, vertex
copy (internals then only-new externals), triangle rewrite and append. -/
def StxxlMesh.add (m : StxxlMesh) (f : Fragment) : Except String StxxlMesh :=
  match computeLocalComponents f.numVertices f.triangles m.clumps with
  | .error e => .error e
  | .ok (c1, cid) =>
    let ukm := updateKeyMap (m.vertices.length + f.numInternal) f.numInternal
      cid f.keys c1 m.keyMap
    let vs1 := m.vertices ++
      (List.range f.numInternal).map (fun i => (f.vertices.getD i 0, cid i))
    .ok
      { vertices := copyExternals f cid ukm.indexTable vs1
        triangles := m.triangles ++
          rewriteTriangles m.vertices.length f.numInternal ukm.indexTable
            f.triangles
        clumps := ukm.clumps
        keyMap := ukm.keyMap }

/-- The clump-id assignment `computeLocalComponents` produces for fragment
`f` arriving at mesh state `m` (recomputed for trace bookkeeping). -/
def fragClumpId (m : StxxlMesh) (f : Fragment) : Nat → Nat :=
  match computeLocalComponents f.numVertices f.triangles m.clumps with
  | .error _ => fun _ => 0
  | .ok (_, cid) => cid

/-- Ghost trace of a fragment: the `(key, clumpId)` pair of each external
vertex occurrence. -/
def externRecords (f : Fragment) (cid : Nat → Nat) :
    List (VertexKey × Nat) :=
  (List.range f.keys.length).map
    (fun i => (f.keys.getD i 0, cid (f.numInternal + i)))

/-- Ghost trace of a fragment: the clump id of each internal vertex
occurrence. -/
def internRecords (f : Fragment) (cid : Nat → Nat) : List Nat :=
  (List.range f.numInternal).map cid

/-- Run `StxxlMesh::add` over a fragment sequence, collecting the ghost
records of every external and internal vertex occurrence. -/
def ingestTrace :
    List Fragment → StxxlMesh → List (VertexKey × Nat) → List Nat →
      Except String (StxxlMesh × List (VertexKey × Nat) × List Nat)
  | [], m, ext, intr => .ok (m, ext, intr)
  | f :: fs, m, ext, intr =>
    match m.add f with
    | .error e => .error e
    | .ok m' =>
      ingestTrace fs m' (ext ++ externRecords f (fragClumpId m f))
        (intr ++ internRecords f (fragClumpId m f))

/-- Final mesh state after ingesting `fs` from scratch (the start state if
ingest overflowed). -/
def ingestState (fs : List Fragment) : StxxlMesh :=
  match ingestTrace fs .start [] [] with
  | .error _ => .start
  | .ok (m, _, _) => m

/-- External-occurrence trace after ingesting `fs` from scratch. -/
def ingestExt (fs : List Fragment) : List (VertexKey × Nat) :=
  match ingestTrace fs .start [] [] with
  | .error _ => []
  | .ok (_, ext, _) => ext

/-- Internal-occurrence trace after ingesting `fs` from scratch. -/
def ingestIntern (fs : List Fragment) : List Nat :=
  match ingestTrace fs .start [] [] with
  | .error _ => []
  | .ok (_, _, intr) => intr

/-! ### Structure-preservation lemmas -/

theorem lookupKey_append_some {km : KeyMap} (l : KeyMap) {k : VertexKey}
    {d : ExternalVertexData} (h : lookupKey km k = some d) :
    lookupKey (km ++ l) k = some d := by
  induction km with
  | nil => exact absurd h (by simp [lookupKey])
  | cons p m ih =>
    rw [List.cons_append]
    rw [lookupKey] at h ⊢
    by_cases hk : k = p.1
    · rwa [if_pos hk] at h ⊢
    · rw [if_neg hk] at h ⊢
      exact ih h

theorem lookupKey_append_new {km : KeyMap} {k : VertexKey}
    (d : ExternalVertexData) (h : lookupKey km k = none) :
    lookupKey (km ++ [(k, d)]) k = some d := by
  induction km with
  | nil => simp [lookupKey]
  | cons p m ih =>
    rw [lookupKey] at h
    by_cases hk : k = p.1
    · rw [if_pos hk] at h
      exact absurd h (by simp)
    · rw [if_neg hk] at h
      rw [List.cons_append, lookupKey, if_neg hk]
      exact ih h

theorem setVert_uf (c : Clumps) (i v : Nat) : (c.setVert i v).uf = c.uf := rfl

theorem setTri_uf (c : Clumps) (i v : Nat) : (c.setTri i v).uf = c.uf := rfl

theorem push_uf (c : Clumps) (v : Nat) : (c.push v).uf = c.uf := rfl

theorem mergeClumps_sameRoot_mono {c : Clumps} {x y : Nat} (a b : Nat)
    (h : c.uf.sameRoot x y) : (c.mergeClumps a b).uf.sameRoot x y := by
  rw [mergeClumps_uf]
  exact sameRoot_merge_mono a b h

theorem mergeClumps_sameRoot_self (c : Clumps) (a b : Nat) :
    (c.mergeClumps a b).uf.sameRoot a b := by
  rw [mergeClumps_uf]
  exact sameRoot_merge_self c.uf a b

theorem allocClumpsAux_ok_uf (nodes : Forest) (L : List Nat) :
    ∀ (c : Clumps) (f : Nat → Nat) (c' : Clumps) (f' : Nat → Nat),
      allocClumpsAux nodes L c f = .ok (c', f') → c'.uf = c.uf := by
  induction L with
  | nil =>
    intro c f c' f' h
    simp only [allocClumpsAux, Except.ok.injEq, Prod.mk.injEq] at h
    rw [← h.1]
  | cons i is ih =>
    intro c f c' f' h
    simp only [allocClumpsAux] at h
    by_cases hr : nodes.root i = i
    · rw [if_pos hr] at h
      by_cases hg : tooManyClumps c.count
      · rw [if_pos hg] at h
        exact absurd h (by simp)
      · rw [if_neg hg] at h
        have h2 := ih _ _ _ _ h
        exact h2
    · rw [if_neg hr] at h
      exact ih _ _ _ _ h

theorem countClumpTriangles_uf (cid : Nat → Nat) (ts : List Triangle) :
    ∀ c : Clumps, (countClumpTriangles cid c ts).uf = c.uf := by
  induction ts with
  | nil => intro c; rfl
  | cons t ts ih =>
    intro c
    rw [countClumpTriangles, List.foldl_cons]
    exact ih _

theorem computeLocalComponents_ok_uf {n : Nat} {ts : List Triangle}
    {c c' : Clumps} {cid : Nat → Nat}
    (h : computeLocalComponents n ts c = .ok (c', cid)) : c'.uf = c.uf := by
  rcases halloc : allocClumpsAux (localForest ts) (List.range n) c
      (fun _ => 0) with e | ⟨c1, froot⟩
  · simp only [computeLocalComponents, halloc] at h
    exact absurd h (by simp)
  · simp only [computeLocalComponents, halloc, Except.ok.injEq,
      Prod.mk.injEq] at h
    rw [← h.1, countClumpTriangles_uf]
    exact allocClumpsAux_ok_uf _ _ _ _ _ _ halloc

/-! ### The welding invariant (claim C2) -/

/-- Every recorded external occurrence has its key in the global key map,
and its clump shares a root with the clump stored for that key. -/
def WeldInv (m : StxxlMesh) (ext : List (VertexKey × Nat)) : Prop :=
  ∀ p ∈ ext, ∃ d, lookupKey m.keyMap p.1 = some d ∧
    m.clumps.uf.sameRoot p.2 d.clumpId

theorem updateKeyMapAux_weld (vertexOffset numInternal : Nat)
    (cid : Nat → Nat) (ks : List VertexKey) :
    ∀ (i : Nat) (c : Clumps) (km : KeyMap) (nk : Nat) (tbl : List Nat),
      (∀ (k : VertexKey) (d : ExternalVertexData), lookupKey km k = some d →
        lookupKey (updateKeyMapAux vertexOffset numInternal cid i ks c km nk
          tbl).keyMap k = some d) ∧
      (∀ a b, c.uf.sameRoot a b →
        (updateKeyMapAux vertexOffset numInternal cid i ks c km nk
          tbl).clumps.uf.sameRoot a b) ∧
      (∀ j < ks.length, ∃ d,
        lookupKey (updateKeyMapAux vertexOffset numInternal cid i ks c km nk
          tbl).keyMap (ks.getD j 0) = some d ∧
        (updateKeyMapAux vertexOffset numInternal cid i ks c km nk
          tbl).clumps.uf.sameRoot (cid (numInternal + (i + j))) d.clumpId) := by
  induction ks with
  | nil =>
    intro i c km nk tbl
    refine ⟨fun k d h => h, fun a b h => h, ?_⟩
    intro j hj
    exact absurd hj (by simp)
  | cons k ks ih =>
    intro i c km nk tbl
    rcases hlk : lookupKey km k with _ | ed
    · -- new key: insert and recurse
      simp only [updateKeyMapAux, hlk]
      obtain ⟨ih1, ih2, ih3⟩ := ih (i + 1) c
        (km ++ [(k, ⟨vertexOffset + nk, cid (numInternal + i)⟩)]) (nk + 1)
        (tbl ++ [vertexOffset + nk])
      refine ⟨?_, ih2, ?_⟩
      · intro k0 d h
        exact ih1 k0 d (lookupKey_append_some _ h)
      · intro j hj
        match j with
        | 0 =>
          refine ⟨⟨vertexOffset + nk, cid (numInternal + i)⟩, ?_, ?_⟩
          · exact ih1 _ _ (lookupKey_append_new _ hlk)
          · have : numInternal + (i + 0) = numInternal + i := by omega
            rw [this]
            exact ih2 _ _ (sameRoot_refl _ _)
        | j + 1 =>
          have hj' : j < ks.length := by
            simpa using hj
          obtain ⟨d, hd1, hd2⟩ := ih3 j hj'
          refine ⟨d, hd1, ?_⟩
          have : numInternal + (i + (j + 1)) = numInternal + (i + 1 + j) := by
            omega
          rw [this]
          exact hd2
    · -- duplicate key: merge clumps, decrement, recurse
      simp only [updateKeyMapAux, hlk]
      set cm := c.mergeClumps (cid (numInternal + i)) ed.clumpId with hcm
      set c2 := cm.setVert (cm.uf.root (cid (numInternal + i)))
        (cm.vert (cm.uf.root (cid (numInternal + i))) - 1) with hc2
      obtain ⟨ih1, ih2, ih3⟩ := ih (i + 1) c2 km nk (tbl ++ [ed.vertexId])
      have hstep : ∀ a b, c.uf.sameRoot a b → c2.uf.sameRoot a b := by
        intro a b h
        rw [hc2, setVert_uf]
        exact mergeClumps_sameRoot_mono _ _ h
      refine ⟨ih1, fun a b h => ih2 a b (hstep a b h), ?_⟩
      intro j hj
      match j with
      | 0 =>
        refine ⟨ed, ih1 _ _ hlk, ?_⟩
        have harith : numInternal + (i + 0) = numInternal + i := by omega
        rw [harith]
        refine ih2 _ _ ?_
        rw [hc2, setVert_uf]
        exact mergeClumps_sameRoot_self c _ _
      | j + 1 =>
        have hj' : j < ks.length := by
          simpa using hj
        obtain ⟨d, hd1, hd2⟩ := ih3 j hj'
        refine ⟨d, hd1, ?_⟩
        have : numInternal + (i + (j + 1)) = numInternal + (i + 1 + j) := by
          omega
        rw [this]
        exact hd2

/-- One `StxxlMesh::add` step preserves the welding invariant, extended with
the fragment's external records. -/
theorem add_weldInv {m : StxxlMesh} {f : Fragment} {m' : StxxlMesh}
    {ext : List (VertexKey × Nat)} (hinv : WeldInv m ext)
    (hadd : m.add f = .ok m') :
    WeldInv m' (ext ++ externRecords f (fragClumpId m f)) := by
  rcases hcc : computeLocalComponents f.numVertices f.triangles m.clumps
      with e | ⟨c1, cid⟩
  · simp only [StxxlMesh.add, hcc] at hadd
    exact absurd hadd (by simp)
  · simp only [StxxlMesh.add, hcc] at hadd
    have hcid : fragClumpId m f = cid := by
      simp only [fragClumpId, hcc]
    have huf : c1.uf = m.clumps.uf := computeLocalComponents_ok_uf hcc
    obtain ⟨h1, h2, h3⟩ := updateKeyMapAux_weld
      (m.vertices.length + f.numInternal) f.numInternal cid f.keys 0 c1
      m.keyMap 0 []
    injection hadd with hadd
    subst hadd
    intro p hp
    rcases List.mem_append.mp hp with hp | hp
    · obtain ⟨d, hd1, hd2⟩ := hinv p hp
      exact ⟨d, h1 _ _ hd1, h2 _ _ (by rw [huf]; exact hd2)⟩
    · rw [hcid] at hp
      simp only [externRecords, List.mem_map, List.mem_range] at hp
      obtain ⟨j, hj, rfl⟩ := hp
      obtain ⟨d, hd1, hd2⟩ := h3 j hj
      refine ⟨d, hd1, ?_⟩
      have harith : f.numInternal + (0 + j) = f.numInternal + j := by omega
      rw [harith] at hd2
      exact hd2

theorem ingestTrace_weldInv (fs : List Fragment) :
    ∀ (m : StxxlMesh) (ext : List (VertexKey × Nat)) (intr : List Nat)
      (m' : StxxlMesh) (ext' : List (VertexKey × Nat)) (intr' : List Nat),
      WeldInv m ext →
      ingestTrace fs m ext intr = .ok (m', ext', intr') →
      WeldInv m' ext' := by
  induction fs with
  | nil =>
    intro m ext intr m' ext' intr' hinv h
    simp only [ingestTrace, Except.ok.injEq, Prod.mk.injEq] at h
    obtain ⟨h1, h2, -⟩ := h
    subst h1
    subst h2
    exact hinv
  | cons f fs ih =>
    intro m ext intr m' ext' intr' hinv h
    rcases hadd : m.add f with e | m1
    · simp only [ingestTrace, hadd] at h
      exact absurd h (by simp)
    · simp only [ingestTrace, hadd] at h
      exact ih _ _ _ _ _ _ (add_weldInv hinv hadd) h

/-- **C2.**  After ingesting any sequence of fragments, every pair of
external vertex occurrences that share the same `VertexKey` have containing
clumps with the same union-find root in the global clump forest. -/
theorem C2_shared_key_same_global_root (fs : List Fragment) (k : VertexKey)
    (c₁ c₂ : Nat) (h₁ : (k, c₁) ∈ ingestExt fs)
    (h₂ : (k, c₂) ∈ ingestExt fs) :
    (ingestState fs).clumps.uf.sameRoot c₁ c₂ := by
  rcases htr : ingestTrace fs .start [] [] with e | ⟨m, ext, intr⟩
  · rw [ingestExt, htr] at h₁
    exact absurd h₁ (List.not_mem_nil _)
  · have hinv : WeldInv m ext :=
      ingestTrace_weldInv fs .start [] [] m ext intr
        (fun p hp => absurd hp (List.not_mem_nil p)) htr
    have hm : ingestState fs = m := by
      rw [ingestState, htr]
    have he : ingestExt fs = ext := by
      rw [ingestExt, htr]
    rw [he] at h₁ h₂
    rw [hm]
    obtain ⟨d, hd1, hd2⟩ := hinv (k, c₁) h₁
    obtain ⟨d', hd1', hd2'⟩ := hinv (k, c₂) h₂
    rw [hd1] at hd1'
    injection hd1' with hd
    subst hd
    exact sameRoot_trans hd2 (sameRoot_symm hd2')

/-- Witness for `C2_shared_key_same_global_root`: two one-vertex fragments
sharing key 5; their clumps 0 and 1 end up with a common root. -/
theorem C2_witness :
    ((5, 0) ∈ ingestExt [⟨0, [0], [5], []⟩, ⟨0, [1], [5], []⟩]) ∧
      ((5, 1) ∈ ingestExt [⟨0, [0], [5], []⟩, ⟨0, [1], [5], []⟩]) ∧
      (ingestState
        [⟨0, [0], [5], []⟩, ⟨0, [1], [5], []⟩]).clumps.uf.sameRoot 0 1 :=
  ⟨by decide, by decide,
    C2_shared_key_same_global_root [⟨0, [0], [5], []⟩, ⟨0, [1], [5], []⟩]
      5 0 1 (by decide) (by decide)⟩

/-! ## Counting infrastructure for the counter invariant (claim C3) -/

/-- Number of elements of `L` whose root in `uf` is `r`. -/
def cntRoot (uf : Forest) (L : List Nat) (r : Nat) : Nat :=
  L.countP (fun c => decide (uf.root c = r))

theorem countP_or_disjoint {L : List Nat} {p q : Nat → Bool}
    (h : ∀ x ∈ L, ¬(p x = true ∧ q x = true)) :
    L.countP (fun x => p x || q x) = L.countP p + L.countP q := by
  induction L with
  | nil => simp
  | cons a L ih =>
    have ha := h a (List.mem_cons_self a L)
    have hrest : ∀ x ∈ L, ¬(p x = true ∧ q x = true) :=
      fun x hx => h x (List.mem_cons_of_mem a hx)
    rw [List.countP_cons, List.countP_cons, List.countP_cons, ih hrest]
    rcases hp : p a <;> rcases hq : q a
    · simp [hp, hq]
    · simp [hp, hq]
      omega
    · simp [hp, hq]
      omega
    · exact absurd ⟨hp, hq⟩ ha

theorem range_countP_self {N r : Nat} (h : r < N) :
    (List.range N).countP (fun y => decide (y = r)) = 1 := by
  induction N with
  | zero => omega
  | succ N ih =>
    rw [List.range_succ, List.countP_append]
    by_cases hr : r = N
    · subst hr
      have hz : (List.range r).countP (fun y => decide (y = r)) = 0 := by
        rw [List.countP_eq_zero]
        intro a ha
        simp only [List.mem_range] at ha
        simp
        omega
      simp [hz]
    · have hr' : r < N := by omega
      rw [ih hr']
      have hne : ¬ (N = r) := fun hc => hr hc.symm
      simp [hne]

/-- Invariant tying a forest's per-root `size` to the actual component
cardinalities, for forests whose unions only ever involved elements below
`N`. -/
def SizeInv (f : Forest) (N : Nat) : Prop :=
  (∀ x, f.root (f.root x) = f.root x) ∧
  (∀ x, N ≤ x → f.root x = x) ∧
  (∀ x, x < N → f.root x < N) ∧
  (∀ r, r < N → f.root r = r →
    f.size r = (List.range N).countP (fun y => decide (f.root y = r)))

theorem sizeInv_start (N : Nat) : SizeInv Forest.start N := by
  refine ⟨fun x => rfl, fun x _ => rfl, fun x h => h, ?_⟩
  intro r hr _
  have := range_countP_self (N := N) (r := r) hr
  simpa [Forest.start] using this.symm

theorem sizeInv_merge {f : Forest} {N a b : Nat} (hf : SizeInv f N)
    (ha : a < N) (hb : b < N) : SizeInv (merge f a b) N := by
  by_cases h : f.root a = f.root b
  · rwa [merge_of_eq h]
  · obtain ⟨hidem, hge, hlt, hsize⟩ := hf
    have hroot := merge_root_of_ne h
    have hsz := merge_size_of_ne h
    have hwl := pickRoots_cases f (f.root a) (f.root b)
    set w := (pickRoots f (f.root a) (f.root b)).1 with hw
    set l := (pickRoots f (f.root a) (f.root b)).2 with hl
    have hwval : w = f.root a ∧ l = f.root b ∨ w = f.root b ∧ l = f.root a := by
      rcases hwl with hp | hp <;> rw [hw, hl, hp] <;> simp
    have hwroot : f.root w = w := by
      rcases hwval with ⟨h1, -⟩ | ⟨h1, -⟩ <;> rw [h1] <;> exact hidem _
    have hlroot : f.root l = l := by
      rcases hwval with ⟨-, h1⟩ | ⟨-, h1⟩ <;> rw [h1] <;> exact hidem _
    have hwne : w ≠ l := by
      rcases hwval with ⟨h1, h2⟩ | ⟨h1, h2⟩ <;> rw [h1, h2]
      · exact h
      · exact fun hc => h hc.symm
    have hwNlt : w < N := by
      rcases hwval with ⟨h1, -⟩ | ⟨h1, -⟩ <;> rw [h1]
      · exact hlt a ha
      · exact hlt b hb
    have hlNlt : l < N := by
      rcases hwval with ⟨-, h1⟩ | ⟨-, h1⟩ <;> rw [h1]
      · exact hlt b hb
      · exact hlt a ha
    have grw : (merge f a b).root w = w := by
      rw [hroot w, hwroot, if_neg hwne]
    refine ⟨?_, ?_, ?_, ?_⟩
    · intro x
      rw [hroot x]
      by_cases hx : f.root x = l
      · rw [if_pos hx]
        exact grw
      · rw [if_neg hx, hroot (f.root x), hidem x, if_neg hx]
    · intro x hx
      have hxl : ¬ (x = l) := by omega
      rw [hroot x, hge x hx, if_neg hxl]
    · intro x hx
      rw [hroot x]
      by_cases hc : f.root x = l
      · rw [if_pos hc]
        exact hwNlt
      · rw [if_neg hc]
        exact hlt x hx
    · intro r hrN hr
      have hraroot : f.root (f.root a) = f.root a := hidem a
      have hrbroot : f.root (f.root b) = f.root b := hidem b
      have hraN : f.root a < N := hlt a ha
      have hrbN : f.root b < N := hlt b hb
      by_cases hrw : r = w
      · rw [hsz r, if_pos hrw, hsize (f.root a) hraN hraroot,
          hsize (f.root b) hrbN hrbroot]
        have hsplit := countP_or_disjoint (L := List.range N)
          (p := fun y => decide (f.root y = f.root a))
          (q := fun y => decide (f.root y = f.root b))
          (by
            intro x _
            simp only [decide_eq_true_eq]
            rintro ⟨h1, h2⟩
            exact h (h1.symm.trans h2))
        rw [← hsplit]
        refine (List.countP_congr ?_).symm
        intro y _
        simp only [Bool.or_eq_true, decide_eq_true_eq]
        have hiff : f.root y = l ∨ f.root y = w ↔
            f.root y = f.root a ∨ f.root y = f.root b := by
          rcases hwval with ⟨hw1, hl1⟩ | ⟨hw1, hl1⟩ <;> rw [hw1, hl1] <;>
            tauto
        rw [hroot y, hrw]
        by_cases hc : f.root y = l
        · rw [if_pos hc]
          exact ⟨fun _ => hiff.mp (Or.inl hc), fun _ => rfl⟩
        · rw [if_neg hc]
          constructor
          · intro hy
            exact hiff.mp (Or.inr hy)
          · intro hy
            rcases hiff.mpr hy with hy' | hy'
            · exact absurd hy' hc
            · exact hy'
      · have hr' := hr
        rw [hroot r] at hr'
        have hfr : f.root r = r := by
          by_cases hc : f.root r = l
          · rw [if_pos hc] at hr'
            exact absurd hr'.symm hrw
          · rwa [if_neg hc] at hr'
        rw [hsz r, if_neg hrw, hsize r hrN hfr]
        refine List.countP_congr ?_
        intro y _
        simp only [decide_eq_true_eq]
        rw [hroot y]
        by_cases hc : f.root y = l
        · rw [if_pos hc]
          constructor
          · intro hy
            exfalso
            have hrl : r = l := hy.symm.trans hc
            rw [hrl] at hr
            rw [hroot l, hlroot, if_pos rfl] at hr
            exact hwne hr
          · intro hy
            exact absurd hy.symm hrw
        · rw [if_neg hc]

theorem sizeInv_localMergeStep {f : Forest} {N : Nat} (hf : SizeInv f N)
    {t : Triangle} (ht : t.1 < N ∧ t.2.1 < N ∧ t.2.2 < N) :
    SizeInv (localMergeStep f t) N :=
  sizeInv_merge (sizeInv_merge hf ht.1 ht.2.1) ht.2.1 ht.2.2

theorem sizeInv_foldl {N : Nat} (ts : List Triangle)
    (hv : ∀ t ∈ ts, t.1 < N ∧ t.2.1 < N ∧ t.2.2 < N) :
    ∀ f : Forest, SizeInv f N → SizeInv (ts.foldl localMergeStep f) N := by
  induction ts with
  | nil => intro f hf; exact hf
  | cons t ts ih =>
    intro f hf
    rw [List.foldl_cons]
    exact ih (fun t' ht' => hv t' (List.mem_cons_of_mem t ht')) _
      (sizeInv_localMergeStep hf (hv t (List.mem_cons_self t ts)))

theorem sizeInv_localForest {ts : List Triangle} {N : Nat}
    (hv : ∀ t ∈ ts, t.1 < N ∧ t.2.1 < N ∧ t.2.2 < N) :
    SizeInv (localForest ts) N :=
  sizeInv_foldl ts hv Forest.start (sizeInv_start N)

/-! ### How component counts transform under a union -/

theorem cntRoot_merge_winner {f : Forest} {a b : Nat}
    (h : f.root a ≠ f.root b) (L : List Nat) :
    cntRoot (merge f a b) L ((pickRoots f (f.root a) (f.root b)).1)
      = cntRoot f L (f.root a) + cntRoot f L (f.root b) := by
  have hroot := merge_root_of_ne h
  have hwl := pickRoots_cases f (f.root a) (f.root b)
  set w := (pickRoots f (f.root a) (f.root b)).1 with hw
  set l := (pickRoots f (f.root a) (f.root b)).2 with hl
  have hwval : w = f.root a ∧ l = f.root b ∨ w = f.root b ∧ l = f.root a := by
    rcases hwl with hp | hp <;> rw [hw, hl, hp] <;> simp
  have hwne : w ≠ l := by
    rcases hwval with ⟨h1, h2⟩ | ⟨h1, h2⟩ <;> rw [h1, h2]
    · exact h
    · exact fun hc => h hc.symm
  unfold cntRoot
  have hsplit := countP_or_disjoint (L := L)
    (p := fun y => decide (f.root y = f.root a))
    (q := fun y => decide (f.root y = f.root b))
    (by
      intro x _
      simp only [decide_eq_true_eq]
      rintro ⟨h1, h2⟩
      exact h (h1.symm.trans h2))
  rw [← hsplit]
  refine List.countP_congr ?_
  intro y _
  simp only [Bool.or_eq_true, decide_eq_true_eq]
  have hiff : f.root y = l ∨ f.root y = w ↔
      f.root y = f.root a ∨ f.root y = f.root b := by
    rcases hwval with ⟨hw1, hl1⟩ | ⟨hw1, hl1⟩ <;> rw [hw1, hl1] <;> tauto
  rw [hroot y]
  by_cases hc : f.root y = l
  · rw [if_pos hc]
    exact ⟨fun _ => hiff.mp (Or.inl hc), fun _ => rfl⟩
  · rw [if_neg hc]
    constructor
    · intro hy
      exact hiff.mp (Or.inr hy)
    · intro hy
      rcases hiff.mpr hy with hy' | hy'
      · exact absurd hy' hc
      · exact hy'

theorem cntRoot_merge_other {f : Forest} {a b : Nat}
    (h : f.root a ≠ f.root b) {r : Nat}
    (hrw : r ≠ (pickRoots f (f.root a) (f.root b)).1)
    (hrl : r ≠ (pickRoots f (f.root a) (f.root b)).2) (L : List Nat) :
    cntRoot (merge f a b) L r = cntRoot f L r := by
  have hroot := merge_root_of_ne h
  unfold cntRoot
  refine List.countP_congr ?_
  intro y _
  simp only [decide_eq_true_eq]
  rw [hroot y]
  by_cases hc : f.root y = (pickRoots f (f.root a) (f.root b)).2
  · rw [if_pos hc]
    constructor
    · intro hy
      exact absurd hy.symm hrw
    · intro hy
      exact absurd (hy.symm.trans hc) hrl
  · rw [if_neg hc]

/-! ### Characterisations of the `Clumps` operations -/

theorem mergeClumps_of_eq {c : Clumps} {a b : Nat}
    (h : c.uf.root a = c.uf.root b) : c.mergeClumps a b = c := by
  simp [Clumps.mergeClumps, h]

theorem mergeClumps_vert_of_ne {c : Clumps} {a b : Nat}
    (h : ¬ c.uf.root a = c.uf.root b) (x : Nat) :
    (c.mergeClumps a b).vert x =
      if x = (pickRoots c.uf (c.uf.root a) (c.uf.root b)).1
      then c.vert (c.uf.root a) + c.vert (c.uf.root b)
      else c.vert x := by
  simp [Clumps.mergeClumps, h]

theorem setVert_vert (c : Clumps) (i v x : Nat) :
    (c.setVert i v).vert x = if x = i then v else c.vert x := rfl

theorem setVert_count (c : Clumps) (i v : Nat) :
    (c.setVert i v).count = c.count := rfl

theorem push_vert (c : Clumps) (v x : Nat) :
    (c.push v).vert x = if x = c.count then v else c.vert x := rfl

theorem push_count (c : Clumps) (v : Nat) :
    (c.push v).count = c.count + 1 := rfl

theorem setTri_vert (c : Clumps) (i v x : Nat) :
    (c.setTri i v).vert x = c.vert x := rfl

theorem setTri_count (c : Clumps) (i v : Nat) :
    (c.setTri i v).count = c.count := rfl

/-! ### Detailed behaviour of the clump-allocation pass -/

theorem allocClumpsAux_froot_untouched (nodes : Forest) (L : List Nat) :
    ∀ (c : Clumps) (f : Nat → Nat) (c' : Clumps) (f' : Nat → Nat),
      allocClumpsAux nodes L c f = .ok (c', f') →
      ∀ x, x ∉ L → f' x = f x := by
  induction L with
  | nil =>
    intro c f c' f' h x _
    simp only [allocClumpsAux, Except.ok.injEq, Prod.mk.injEq] at h
    rw [← h.2]
  | cons i is ih =>
    intro c f c' f' h x hx
    have hxi : x ≠ i := fun hc => hx (hc ▸ List.mem_cons_self i is)
    have hxis : x ∉ is := fun hc => hx (List.mem_cons_of_mem i hc)
    simp only [allocClumpsAux] at h
    by_cases hr : nodes.root i = i
    · rw [if_pos hr] at h
      by_cases hg : tooManyClumps c.count
      · rw [if_pos hg] at h
        exact absurd h (by simp)
      · rw [if_neg hg] at h
        have := ih _ _ _ _ h x hxis
        rw [this, if_neg hxi]
    · rw [if_neg hr] at h
      exact ih _ _ _ _ h x hxis

theorem allocClumpsAux_count_le (nodes : Forest) (L : List Nat)
    (c : Clumps) (f : Nat → Nat) (c' : Clumps) (f' : Nat → Nat)
    (h : allocClumpsAux nodes L c f = .ok (c', f')) : c.count ≤ c'.count := by
  have := allocClumpsAux_ok_count nodes L c f c' f' h
  omega

theorem allocClumpsAux_vert_untouched (nodes : Forest) (L : List Nat) :
    ∀ (c : Clumps) (f : Nat → Nat) (c' : Clumps) (f' : Nat → Nat),
      allocClumpsAux nodes L c f = .ok (c', f') →
      ∀ x, x < c.count ∨ c'.count ≤ x → c'.vert x = c.vert x := by
  induction L with
  | nil =>
    intro c f c' f' h x _
    simp only [allocClumpsAux, Except.ok.injEq, Prod.mk.injEq] at h
    rw [← h.1]
  | cons i is ih =>
    intro c f c' f' h x hx
    simp only [allocClumpsAux] at h
    by_cases hr : nodes.root i = i
    · rw [if_pos hr] at h
      by_cases hg : tooManyClumps c.count
      · rw [if_pos hg] at h
        exact absurd h (by simp)
      · rw [if_neg hg] at h
        have hle := allocClumpsAux_count_le nodes is _ _ _ _ h
        rw [push_count] at hle
        have hx' : x < (c.push (nodes.size i)).count ∨ c'.count ≤ x := by
          rw [push_count]
          omega
        have := ih _ _ _ _ h x hx'
        rw [this, push_vert, if_neg]
        intro hc
        omega
    · rw [if_neg hr] at h
      exact ih _ _ _ _ h x hx

theorem allocClumpsAux_assigned (nodes : Forest) (L : List Nat) :
    ∀ (c : Clumps) (f : Nat → Nat) (c' : Clumps) (f' : Nat → Nat),
      L.Nodup →
      allocClumpsAux nodes L c f = .ok (c', f') →
      ∀ i ∈ L, nodes.root i = i →
        c.count ≤ f' i ∧ f' i < c'.count ∧ c'.vert (f' i) = nodes.size i := by
  induction L with
  | nil =>
    intro c f c' f' _ h i hi
    exact absurd hi (List.not_mem_nil i)
  | cons j is ih =>
    intro c f c' f' hnd h i hi hroot
    have hnd' : is.Nodup := (List.nodup_cons.mp hnd).2
    have hjis : j ∉ is := (List.nodup_cons.mp hnd).1
    simp only [allocClumpsAux] at h
    by_cases hr : nodes.root j = j
    · rw [if_pos hr] at h
      by_cases hg : tooManyClumps c.count
      · rw [if_pos hg] at h
        exact absurd h (by simp)
      · rw [if_neg hg] at h
        rcases List.mem_cons.mp hi with rfl | hi'
        · have hfi : f' i = c.count := by
            have := allocClumpsAux_froot_untouched nodes is _ _ _ _ h i hjis
            rw [this, if_pos rfl]
          have hle := allocClumpsAux_count_le nodes is _ _ _ _ h
          rw [push_count] at hle
          refine ⟨by omega, by omega, ?_⟩
          have hv := allocClumpsAux_vert_untouched nodes is _ _ _ _ h
            (f' i) (by rw [push_count]; omega)
          rw [hv, hfi, push_vert, if_pos rfl]
        · have := ih _ _ _ _ hnd' h i hi' hroot
          have hle : c.count ≤ (c.push (nodes.size i)).count := by
            rw [push_count]; omega
          refine ⟨?_, this.2.1, this.2.2⟩
          have := this.1
          rw [push_count] at this
          omega
    · rw [if_neg hr] at h
      rcases List.mem_cons.mp hi with rfl | hi'
      · exact absurd hroot hr
      · exact ih _ _ _ _ hnd' h i hi' hroot

theorem allocClumpsAux_inj (nodes : Forest) (L : List Nat) :
    ∀ (c : Clumps) (f : Nat → Nat) (c' : Clumps) (f' : Nat → Nat),
      L.Nodup →
      allocClumpsAux nodes L c f = .ok (c', f') →
      ∀ i ∈ L, ∀ j ∈ L, nodes.root i = i → nodes.root j = j →
        f' i = f' j → i = j := by
  induction L with
  | nil =>
    intro c f c' f' _ _ i hi
    exact absurd hi (List.not_mem_nil i)
  | cons a is ih =>
    intro c f c' f' hnd h i hi j hj hri hrj hij
    have hnd' : is.Nodup := (List.nodup_cons.mp hnd).2
    have hais : a ∉ is := (List.nodup_cons.mp hnd).1
    simp only [allocClumpsAux] at h
    by_cases hr : nodes.root a = a
    · rw [if_pos hr] at h
      by_cases hg : tooManyClumps c.count
      · rw [if_pos hg] at h
        exact absurd h (by simp)
      · rw [if_neg hg] at h
        have hfa : f' a = c.count := by
          have := allocClumpsAux_froot_untouched nodes is _ _ _ _ h a hais
          rw [this, if_pos rfl]
        rcases List.mem_cons.mp hi with rfl | hi' <;>
          rcases List.mem_cons.mp hj with rfl | hj'
        · rfl
        · exfalso
          have hj2 := (allocClumpsAux_assigned nodes is _ _ _ _ hnd' h j hj'
            hrj).1
          rw [push_count] at hj2
          omega
        · exfalso
          have hi2 := (allocClumpsAux_assigned nodes is _ _ _ _ hnd' h i hi'
            hri).1
          rw [push_count] at hi2
          omega
        · exact ih _ _ _ _ hnd' h i hi' j hj' hri hrj hij
    · rw [if_neg hr] at h
      rcases List.mem_cons.mp hi with rfl | hi'
      · exact absurd hri hr
      · rcases List.mem_cons.mp hj with rfl | hj'
        · exact absurd hrj hr
        · exact ih _ _ _ _ hnd' h i hi' j hj' hri hrj hij

theorem allocClumpsAux_surj (nodes : Forest) (L : List Nat) :
    ∀ (c : Clumps) (f : Nat → Nat) (c' : Clumps) (f' : Nat → Nat),
      L.Nodup →
      allocClumpsAux nodes L c f = .ok (c', f') →
      ∀ q, c.count ≤ q → q < c'.count →
        ∃ i ∈ L, nodes.root i = i ∧ f' i = q := by
  induction L with
  | nil =>
    intro c f c' f' _ h q h1 h2
    simp only [allocClumpsAux, Except.ok.injEq, Prod.mk.injEq] at h
    rw [← h.1] at h2
    omega
  | cons a is ih =>
    intro c f c' f' hnd h q h1 h2
    have hnd' : is.Nodup := (List.nodup_cons.mp hnd).2
    have hais : a ∉ is := (List.nodup_cons.mp hnd).1
    simp only [allocClumpsAux] at h
    by_cases hr : nodes.root a = a
    · rw [if_pos hr] at h
      by_cases hg : tooManyClumps c.count
      · rw [if_pos hg] at h
        exact absurd h (by simp)
      · rw [if_neg hg] at h
        by_cases hq : q = c.count
        · refine ⟨a, List.mem_cons_self a is, hr, ?_⟩
          have := allocClumpsAux_froot_untouched nodes is _ _ _ _ h a hais
          rw [this, if_pos rfl, hq]
        · have hq' : (c.push (nodes.size a)).count ≤ q := by
            rw [push_count]
            omega
          obtain ⟨i, hi, hri, hfi⟩ := ih _ _ _ _ hnd' h q hq' h2
          exact ⟨i, List.mem_cons_of_mem a hi, hri, hfi⟩
    · rw [if_neg hr] at h
      obtain ⟨i, hi, hri, hfi⟩ := ih _ _ _ _ hnd' h q h1 h2
      exact ⟨i, List.mem_cons_of_mem a hi, hri, hfi⟩

theorem countClumpTriangles_vert (cid : Nat → Nat) (ts : List Triangle) :
    ∀ (c : Clumps) (x : Nat), (countClumpTriangles cid c ts).vert x = c.vert x := by
  induction ts with
  | nil => intro c x; rfl
  | cons t ts ih =>
    intro c x
    rw [countClumpTriangles, List.foldl_cons]
    exact ih _ x

/-- Full specification of a successful `computeLocalComponents` run on a
valid fragment: the global union-find is untouched, the clump table only
grows, every vertex's clump id lies in the freshly allocated block, counters
outside the block are untouched, and each fresh clump's `vertices` counter is
the number of fragment vertices assigned to it. -/
theorem computeLocalComponents_spec {n : Nat} {ts : List Triangle}
    {c c' : Clumps} {cid : Nat → Nat}
    (hv : ∀ t ∈ ts, t.1 < n ∧ t.2.1 < n ∧ t.2.2 < n)
    (h : computeLocalComponents n ts c = .ok (c', cid)) :
    c'.uf = c.uf ∧
    c.count ≤ c'.count ∧
    (∀ i, i < n → c.count ≤ cid i ∧ cid i < c'.count) ∧
    (∀ x, x < c.count ∨ c'.count ≤ x → c'.vert x = c.vert x) ∧
    (∀ q, c.count ≤ q → q < c'.count →
      c'.vert q = (List.range n).countP (fun i => decide (cid i = q))) := by
  have hsi := sizeInv_localForest (N := n) hv
  obtain ⟨hidem, hge, hlt, hsize⟩ := hsi
  rcases halloc : allocClumpsAux (localForest ts) (List.range n) c
      (fun _ => 0) with e | ⟨c1, froot⟩
  · simp only [computeLocalComponents, halloc] at h
    exact absurd h (by simp)
  · simp only [computeLocalComponents, halloc, Except.ok.injEq,
      Prod.mk.injEq] at h
    obtain ⟨hc', hcid⟩ := h
    have hnd := List.nodup_range n
    have hcnt := allocClumpsAux_ok_count _ _ _ _ _ _ halloc
    have huf1 := allocClumpsAux_ok_uf _ _ _ _ _ _ halloc
    have hcount1 : c1.count = c'.count := by
      rw [← hc', countClumpTriangles_count]
    have hvert1 : ∀ x, c'.vert x = c1.vert x := by
      intro x
      rw [← hc', countClumpTriangles_vert]
    refine ⟨?_, by omega, ?_, ?_, ?_⟩
    · rw [← hc', countClumpTriangles_uf]
      exact huf1
    · intro i hi
      have hroot : (localForest ts).root i < n := hlt i hi
      have hrootroot : (localForest ts).root ((localForest ts).root i)
          = (localForest ts).root i := hidem i
      have := allocClumpsAux_assigned _ _ _ _ _ _ hnd halloc
        ((localForest ts).root i) (List.mem_range.mpr hroot) hrootroot
      rw [← hcid]
      simp only
      omega
    · intro x hx
      rw [hvert1]
      refine allocClumpsAux_vert_untouched _ _ _ _ _ _ halloc x ?_
      omega
    · intro q hq1 hq2
      obtain ⟨ρ, hρmem, hρroot, hρf⟩ := allocClumpsAux_surj _ _ _ _ _ _
        hnd halloc q hq1 (by omega)
      have hρn : ρ < n := List.mem_range.mp hρmem
      have hassigned := allocClumpsAux_assigned _ _ _ _ _ _ hnd halloc
        ρ hρmem hρroot
      rw [hvert1, ← hρf, hassigned.2.2, hsize ρ hρn hρroot]
      refine List.countP_congr ?_
      intro y hy
      have hyn : y < n := List.mem_range.mp hy
      simp only [decide_eq_true_eq]
      constructor
      · intro hyr
        rw [← hcid]
        simp only
        rw [hyr, hρf]
      · intro hyq
        rw [← hcid] at hyq
        simp only at hyq
        have hyroot : (localForest ts).root y < n := hlt y hyn
        have hyrr : (localForest ts).root ((localForest ts).root y)
            = (localForest ts).root y := hidem y
        refine allocClumpsAux_inj _ _ _ _ _ _ hnd halloc
          ((localForest ts).root y) (List.mem_range.mpr hyroot)
          ρ hρmem hyrr hρroot ?_
        rw [hyq, hρf]

/-! ### Small helpers for the counter invariant -/

/-- The clump ids stored in the key map, in entry order. -/
def clumpList (km : KeyMap) : List Nat := km.map (fun p => p.2.clumpId)

/-- The (not yet processed) clump ids of the remaining external vertices in
an `updateKeyMap` run starting at external index `i`. -/
def pendingClumps (cid : Nat → Nat) (nInt : Nat) :
    Nat → List VertexKey → List Nat
  | _, [] => []
  | i, _ :: ks => cid (nInt + i) :: pendingClumps cid nInt (i + 1) ks

theorem cntRoot_nil (uf : Forest) (r : Nat) : cntRoot uf [] r = 0 := rfl

theorem cntRoot_cons (uf : Forest) (x : Nat) (L : List Nat) (r : Nat) :
    cntRoot uf (x :: L) r =
      cntRoot uf L r + (if uf.root x = r then 1 else 0) := by
  simp [cntRoot, List.countP_cons]

theorem cntRoot_append (uf : Forest) (L₁ L₂ : List Nat) (r : Nat) :
    cntRoot uf (L₁ ++ L₂) r = cntRoot uf L₁ r + cntRoot uf L₂ r := by
  simp [cntRoot, List.countP_append]

theorem clumpList_append (km l : KeyMap) :
    clumpList (km ++ l) = clumpList km ++ clumpList l := by
  simp [clumpList]

theorem lookupKey_none_not_mem {km : KeyMap} {k : VertexKey}
    (h : lookupKey km k = none) : k ∉ km.map Prod.fst := by
  induction km with
  | nil => simp
  | cons p m ih =>
    rw [lookupKey] at h
    by_cases hk : k = p.1
    · rw [if_pos hk] at h
      exact absurd h (by simp)
    · rw [if_neg hk] at h
      simp only [List.map_cons, List.mem_cons]
      rintro (hc | hc)
      · exact hk hc
      · exact ih h hc

theorem lookupKey_some_clump_mem {km : KeyMap} {k : VertexKey}
    {d : ExternalVertexData} (h : lookupKey km k = some d) :
    d.clumpId ∈ clumpList km := by
  induction km with
  | nil => exact absurd h (by simp [lookupKey])
  | cons p m ih =>
    rw [lookupKey] at h
    by_cases hk : k = p.1
    · rw [if_pos hk] at h
      injection h with h
      subst h
      simp [clumpList]
    · rw [if_neg hk] at h
      simp only [clumpList, List.map_cons, List.mem_cons]
      exact Or.inr (ih h)

theorem merge_preserves_idem {f : Forest}
    (hidem : ∀ x, f.root (f.root x) = f.root x) (a b : Nat) :
    ∀ x, (merge f a b).root ((merge f a b).root x) = (merge f a b).root x := by
  by_cases h : f.root a = f.root b
  · rw [merge_of_eq h]
    exact hidem
  · have hroot := merge_root_of_ne h
    have hwl := pickRoots_cases f (f.root a) (f.root b)
    set w := (pickRoots f (f.root a) (f.root b)).1 with hw
    set l := (pickRoots f (f.root a) (f.root b)).2 with hl
    have hwval : w = f.root a ∧ l = f.root b ∨ w = f.root b ∧ l = f.root a := by
      rcases hwl with hp | hp <;> rw [hw, hl, hp] <;> simp
    have hwroot : f.root w = w := by
      rcases hwval with ⟨h1, -⟩ | ⟨h1, -⟩ <;> rw [h1] <;> exact hidem _
    have hwne : w ≠ l := by
      rcases hwval with ⟨h1, h2⟩ | ⟨h1, h2⟩ <;> rw [h1, h2]
      · exact h
      · exact fun hc => h hc.symm
    have grw : (merge f a b).root w = w := by
      rw [hroot w, hwroot, if_neg hwne]
    intro x
    rw [hroot x]
    by_cases hx : f.root x = l
    · rw [if_pos hx]
      exact grw
    · rw [if_neg hx, hroot (f.root x), hidem x, if_neg hx]

theorem merge_preserves_ge {f : Forest} {N a b : Nat}
    (hge : ∀ x, N ≤ x → f.root x = x)
    (hra : f.root a < N) (hrb : f.root b < N) :
    ∀ x, N ≤ x → (merge f a b).root x = x := by
  by_cases h : f.root a = f.root b
  · rw [merge_of_eq h]
    exact hge
  · intro x hx
    have hroot := merge_root_of_ne h
    have hlN : (pickRoots f (f.root a) (f.root b)).2 < N := by
      rcases pickRoots_cases f (f.root a) (f.root b) with hp | hp <;>
        rw [hp]
      · exact hrb
      · exact hra
    have hxl : ¬ (x = (pickRoots f (f.root a) (f.root b)).2) := by omega
    rw [hroot x, hge x hx, if_neg hxl]

theorem merge_preserves_lt {f : Forest} {N a b : Nat}
    (hlt : ∀ x, x < N → f.root x < N)
    (hra : f.root a < N) (hrb : f.root b < N) :
    ∀ x, x < N → (merge f a b).root x < N := by
  by_cases h : f.root a = f.root b
  · rw [merge_of_eq h]
    exact hlt
  · intro x hx
    have hroot := merge_root_of_ne h
    have hwN : (pickRoots f (f.root a) (f.root b)).1 < N := by
      rcases pickRoots_cases f (f.root a) (f.root b) with hp | hp <;>
        rw [hp]
      · exact hra
      · exact hrb
    rw [hroot x]
    by_cases hc : f.root x = (pickRoots f (f.root a) (f.root b)).2
    · rw [if_pos hc]
      exact hwN
    · rw [if_neg hc]
      exact hlt x hx

theorem merge_root_left {f : Forest} {a b : Nat}
    (h : f.root a ≠ f.root b) :
    (merge f a b).root a = (pickRoots f (f.root a) (f.root b)).1 := by
  have hroot := merge_root_of_ne h
  rcases pickRoots_cases f (f.root a) (f.root b) with hc | hc <;>
    rw [hroot a, hc] <;> simp [h]

/-- Structural well-formedness of the clump table: roots are idempotent,
ids beyond `count` are untouched, and allocated ids have allocated roots. -/
def ClumpsWF (c : Clumps) : Prop :=
  (∀ x, c.uf.root (c.uf.root x) = c.uf.root x) ∧
  (∀ x, c.count ≤ x → c.uf.root x = x) ∧
  (∀ x, x < c.count → c.uf.root x < c.count)

theorem clumpsWF_start : ClumpsWF Clumps.start :=
  ⟨fun _ => rfl, fun _ _ => rfl, fun x h => h⟩

theorem mergeClumps_WF {c : Clumps} {v u : Nat} (hWF : ClumpsWF c)
    (hv : v < c.count) (hu : u < c.count) : ClumpsWF (c.mergeClumps v u) := by
  obtain ⟨hidem, hge, hlt⟩ := hWF
  refine ⟨?_, ?_, ?_⟩
  · intro x
    rw [mergeClumps_uf]
    exact merge_preserves_idem hidem v u x
  · intro x hx
    rw [mergeClumps_count] at hx
    rw [mergeClumps_uf]
    exact merge_preserves_ge hge (hlt v hv) (hlt u hu) x hx
  · intro x hx
    rw [mergeClumps_count] at hx
    rw [mergeClumps_uf, mergeClumps_count]
    exact merge_preserves_lt hlt (hlt v hv) (hlt u hu) x hx

/-- A clump union preserves the three-ledger counter equation: counters and
per-component counts transform additively. -/
theorem mergeClumps_counterInv {c : Clumps} {v u : Nat} (hWF : ClumpsWF c)
    (Lkm Lintr Lpend : List Nat)
    (heq : ∀ r, c.uf.root r = r →
      c.vert r = cntRoot c.uf Lkm r + cntRoot c.uf Lintr r +
        cntRoot c.uf Lpend r) :
    ∀ r, (c.mergeClumps v u).uf.root r = r →
      (c.mergeClumps v u).vert r =
        cntRoot (c.mergeClumps v u).uf Lkm r +
        cntRoot (c.mergeClumps v u).uf Lintr r +
        cntRoot (c.mergeClumps v u).uf Lpend r := by
  obtain ⟨hidem, hge, hlt⟩ := hWF
  by_cases hroots : c.uf.root v = c.uf.root u
  · rw [mergeClumps_of_eq hroots]
    exact heq
  · intro r hr
    have hufm : (c.mergeClumps v u).uf = merge c.uf v u := mergeClumps_uf c v u
    rw [hufm] at hr ⊢
    have hwl := pickRoots_cases c.uf (c.uf.root v) (c.uf.root u)
    set w := (pickRoots c.uf (c.uf.root v) (c.uf.root u)).1 with hw
    set l := (pickRoots c.uf (c.uf.root v) (c.uf.root u)).2 with hl
    have hwval : w = c.uf.root v ∧ l = c.uf.root u ∨
        w = c.uf.root u ∧ l = c.uf.root v := by
      rcases hwl with hp | hp <;> rw [hw, hl, hp] <;> simp
    have hlroot : c.uf.root l = l := by
      rcases hwval with ⟨-, h1⟩ | ⟨-, h1⟩ <;> rw [h1] <;> exact hidem _
    have hwne : w ≠ l := by
      rcases hwval with ⟨h1, h2⟩ | ⟨h1, h2⟩ <;> rw [h1, h2]
      · exact hroots
      · exact fun hc => hroots hc.symm
    by_cases hrw : r = w
    · rw [mergeClumps_vert_of_ne hroots r, if_pos hrw, hrw]
      rw [cntRoot_merge_winner hroots Lkm, cntRoot_merge_winner hroots Lintr,
        cntRoot_merge_winner hroots Lpend]
      have h1 := heq (c.uf.root v) (hidem v)
      have h2 := heq (c.uf.root u) (hidem u)
      omega
    · have hrl : r ≠ l := by
        intro hc
        rw [hc] at hr
        rw [merge_root_of_ne hroots l, hlroot, if_pos rfl] at hr
        exact hwne hr
      have hfr : c.uf.root r = r := by
        have hr' := hr
        rw [merge_root_of_ne hroots r] at hr'
        by_cases hc : c.uf.root r = l
        · rw [if_pos hc] at hr'
          exact absurd hr'.symm hrw
        · rwa [if_neg hc] at hr'
      rw [mergeClumps_vert_of_ne hroots r, if_neg hrw]
      rw [cntRoot_merge_other hroots hrw hrl,
        cntRoot_merge_other hroots hrw hrl,
        cntRoot_merge_other hroots hrw hrl]
      exact heq r hfr

/-- The master invariant of the `updateKeyMap` loop: the clump table stays
well formed, its `count` is unchanged, key-map clump ids stay allocated,
keys stay distinct, and the three-ledger counter equation (key-map entries,
internal records, pending externals) descends to the two-ledger equation
once every external has been processed. -/
theorem updateKeyMapAux_counterInv (vOff nInt : Nat) (cid : Nat → Nat)
    (ks : List VertexKey) :
    ∀ (i : Nat) (c : Clumps) (km : KeyMap) (nk : Nat) (tbl : List Nat)
      (intr : List Nat),
      ClumpsWF c →
      (∀ q ∈ clumpList km, q < c.count) →
      (∀ q ∈ intr, q < c.count) →
      (∀ j, j < ks.length → cid (nInt + (i + j)) < c.count) →
      (km.map Prod.fst).Nodup →
      (∀ r, c.uf.root r = r →
        c.vert r = cntRoot c.uf (clumpList km) r + cntRoot c.uf intr r +
          cntRoot c.uf (pendingClumps cid nInt i ks) r) →
      ClumpsWF (updateKeyMapAux vOff nInt cid i ks c km nk tbl).clumps ∧
      (updateKeyMapAux vOff nInt cid i ks c km nk tbl).clumps.count
        = c.count ∧
      (∀ q ∈ clumpList (updateKeyMapAux vOff nInt cid i ks c km nk
        tbl).keyMap, q < c.count) ∧
      ((updateKeyMapAux vOff nInt cid i ks c km nk tbl).keyMap.map
        Prod.fst).Nodup ∧
      (∀ r, (updateKeyMapAux vOff nInt cid i ks c km nk
          tbl).clumps.uf.root r = r →
        (updateKeyMapAux vOff nInt cid i ks c km nk tbl).clumps.vert r =
          cntRoot (updateKeyMapAux vOff nInt cid i ks c km nk
              tbl).clumps.uf
            (clumpList (updateKeyMapAux vOff nInt cid i ks c km nk
              tbl).keyMap) r +
          cntRoot (updateKeyMapAux vOff nInt cid i ks c km nk
            tbl).clumps.uf intr r) := by
  induction ks with
  | nil =>
    intro i c km nk tbl intr hWF hkm hintr _ hnd heq
    refine ⟨hWF, rfl, hkm, hnd, ?_⟩
    intro r hr
    have h := heq r hr
    rw [pendingClumps, cntRoot_nil] at h
    show c.vert r = cntRoot c.uf (clumpList km) r + cntRoot c.uf intr r
    omega
  | cons k ks ih =>
    intro i c km nk tbl intr hWF hkm hintr hcid hnd heq
    have hv0 : cid (nInt + i) < c.count := by
      have := hcid 0 (by simp)
      simpa using this
    have hcid' : ∀ j, j < ks.length →
        cid (nInt + (i + 1 + j)) < c.count := by
      intro j hj
      have := hcid (j + 1) (by simp; omega)
      have harith : nInt + (i + (j + 1)) = nInt + (i + 1 + j) := by omega
      rwa [harith] at this
    have hpend : pendingClumps cid nInt i (k :: ks)
        = cid (nInt + i) :: pendingClumps cid nInt (i + 1) ks := rfl
    rcases hlk : lookupKey km k with _ | ed
    · -- new key
      simp only [updateKeyMapAux, hlk]
      have hkm' : ∀ q ∈ clumpList (km ++
          [(k, ⟨vOff + nk, cid (nInt + i)⟩)]), q < c.count := by
        intro q hq
        rw [clumpList_append] at hq
        rcases List.mem_append.mp hq with hq | hq
        · exact hkm q hq
        · simp only [clumpList, List.map_cons, List.map_nil,
            List.mem_singleton] at hq
          rw [hq]
          exact hv0
      have hnd' : ((km ++ [(k, (⟨vOff + nk, cid (nInt + i)⟩ :
          ExternalVertexData))]).map Prod.fst).Nodup := by
        rw [List.map_append]
        rw [List.nodup_append]
        refine ⟨hnd, List.nodup_singleton k, ?_⟩
        intro x hx
        simp only [List.map_cons, List.map_nil, List.mem_singleton]
        intro hc
        subst hc
        exact lookupKey_none_not_mem hlk hx
      have heq' : ∀ r, c.uf.root r = r →
          c.vert r = cntRoot c.uf (clumpList (km ++
            [(k, ⟨vOff + nk, cid (nInt + i)⟩)])) r +
            cntRoot c.uf intr r +
            cntRoot c.uf (pendingClumps cid nInt (i + 1) ks) r := by
        intro r hr
        have := heq r hr
        rw [hpend, cntRoot_cons] at this
        rw [clumpList_append, cntRoot_append]
        have hsing : cntRoot c.uf (clumpList
            [(k, (⟨vOff + nk, cid (nInt + i)⟩ : ExternalVertexData))]) r
            = if c.uf.root (cid (nInt + i)) = r then 1 else 0 := by
          simp [clumpList, cntRoot, List.countP_cons]
        rw [hsing]
        omega
      exact ih (i + 1) c _ (nk + 1) _ intr hWF hkm' hintr hcid' hnd' heq'
    · -- duplicate key: merge and decrement
      simp only [updateKeyMapAux, hlk]
      have hult : ed.clumpId < c.count :=
        hkm ed.clumpId (lookupKey_some_clump_mem hlk)
      set cm := c.mergeClumps (cid (nInt + i)) ed.clumpId with hcm
      have hWFm : ClumpsWF cm := mergeClumps_WF hWF hv0 hult
      have hcountm : cm.count = c.count := mergeClumps_count _ _ _
      have heqm : ∀ r, cm.uf.root r = r →
          cm.vert r = cntRoot cm.uf (clumpList km) r +
            cntRoot cm.uf intr r +
            cntRoot cm.uf (pendingClumps cid nInt i (k :: ks)) r :=
        mergeClumps_counterInv hWF _ _ _ heq
      set r0 := cm.uf.root (cid (nInt + i)) with hr0
      have hr0root : cm.uf.root r0 = r0 := hWFm.1 _
      set c2 := cm.setVert r0 (cm.vert r0 - 1) with hc2
      have hc2uf : c2.uf = cm.uf := rfl
      have hc2count : c2.count = cm.count := rfl
      have hc2vert : ∀ x, c2.vert x =
          if x = r0 then cm.vert r0 - 1 else cm.vert x := fun _ => rfl
      have hWF2 : ClumpsWF c2 := hWFm
      have heq2 : ∀ r, c2.uf.root r = r →
          c2.vert r = cntRoot c2.uf (clumpList km) r +
            cntRoot c2.uf intr r +
            cntRoot c2.uf (pendingClumps cid nInt (i + 1) ks) r := by
        intro r hr
        rw [hc2uf] at hr ⊢
        have hm := heqm r hr
        rw [hpend, cntRoot_cons] at hm
        rw [hc2vert]
        by_cases hrr : r = r0
        · rw [if_pos hrr]
          rw [hrr] at hm ⊢
          rw [if_pos rfl] at hm
          omega
        · rw [if_neg hrr]
          have hne : ¬ (cm.uf.root (cid (nInt + i)) = r) := by
            rw [← hr0]
            exact fun hc => hrr hc.symm
          rw [if_neg hne] at hm
          omega
      have hkm2 : ∀ q ∈ clumpList km, q < c2.count := by
        rw [hc2count, hcountm]
        exact hkm
      have hintr2 : ∀ q ∈ intr, q < c2.count := by
        rw [hc2count, hcountm]
        exact hintr
      have hcid2 : ∀ j, j < ks.length →
          cid (nInt + (i + 1 + j)) < c2.count := by
        rw [hc2count, hcountm]
        exact hcid'
      obtain ⟨hA, hB, hC, hD, hE⟩ :=
        ih (i + 1) c2 km nk (tbl ++ [ed.vertexId]) intr hWF2 hkm2 hintr2
          hcid2 hnd heq2
      rw [hc2count, hcountm] at hB hC
      exact ⟨hA, hB, hC, hD, hE⟩

theorem cntRoot_eq_zero {uf : Forest} {L : List Nat} {r : Nat}
    (h : ∀ x ∈ L, uf.root x ≠ r) : cntRoot uf L r = 0 := by
  rw [cntRoot, List.countP_eq_zero]
  intro x hx
  simp only [decide_eq_true_eq]
  exact h x hx

theorem pendingClumps_eq_map (cid : Nat → Nat) (nInt : Nat)
    (ks : List VertexKey) : ∀ i,
    pendingClumps cid nInt i ks =
      (List.range ks.length).map (fun j => cid (nInt + (i + j))) := by
  induction ks with
  | nil => intro i; rfl
  | cons k ks ih =>
    intro i
    have hfun : (fun j => cid (nInt + (i + 1 + j))) =
        ((fun j => cid (nInt + (i + j))) ∘ Nat.succ) := by
      funext j
      simp only [Function.comp]
      congr 1
      omega
    rw [pendingClumps, ih (i + 1), List.length_cons,
      List.range_succ_eq_map, List.map_cons, List.map_map, hfun]
    norm_num

theorem countP_range_add (a b : Nat) (p : Nat → Bool) :
    (List.range (a + b)).countP p =
      (List.range a).countP p +
        (List.range b).countP (fun j => p (a + j)) := by
  rw [List.range_add, List.countP_append, List.countP_map]
  rfl

/-- The between-fragment counter invariant: the clump table is well formed,
all recorded clump ids are allocated, the key map has pairwise-distinct keys,
and every root's `vertices` counter equals the number of key-map entries in
its component plus the number of recorded internal-vertex occurrences in its
component. -/
def CInv (m : StxxlMesh) (intr : List Nat) : Prop :=
  ClumpsWF m.clumps ∧
  (∀ q ∈ clumpList m.keyMap, q < m.clumps.count) ∧
  (∀ q ∈ intr, q < m.clumps.count) ∧
  (m.keyMap.map Prod.fst).Nodup ∧
  (∀ r, m.clumps.uf.root r = r →
    m.clumps.vert r = cntRoot m.clumps.uf (clumpList m.keyMap) r +
      cntRoot m.clumps.uf intr r)

theorem cinv_start : CInv .start [] := by
  refine ⟨clumpsWF_start, ?_, ?_, ?_, ?_⟩
  · intro q hq
    exact absurd hq (by simp [clumpList, StxxlMesh.start])
  · intro q hq
    exact absurd hq (List.not_mem_nil q)
  · simp [StxxlMesh.start]
  · intro r _
    rfl

/-- One `StxxlMesh::add` step preserves the counter invariant, extended with
the fragment's internal-occurrence records. -/
theorem add_counterInv {m : StxxlMesh} {f : Fragment} {m' : StxxlMesh}
    {intr : List Nat} (hval : f.valid) (hinv : CInv m intr)
    (hadd : m.add f = .ok m') :
    CInv m' (intr ++ internRecords f (fragClumpId m f)) := by
  obtain ⟨hWF, hkmB, hintrB, hnd, heq⟩ := hinv
  obtain ⟨hidem, hge, hlt⟩ := hWF
  rcases hcc : computeLocalComponents f.numVertices f.triangles m.clumps
      with e | ⟨c1, cid⟩
  · simp only [StxxlMesh.add, hcc] at hadd
    exact absurd hadd (by simp)
  · simp only [StxxlMesh.add, hcc] at hadd
    injection hadd with hadd
    have hcid : fragClumpId m f = cid := by
      simp only [fragClumpId, hcc]
    rw [hcid]
    obtain ⟨huf, hcnt, hcidb, hvertU, hfresh⟩ :=
      computeLocalComponents_spec hval hcc
    have hnv : f.numVertices = f.numInternal + f.keys.length := rfl
    have hWF1 : ClumpsWF c1 := by
      refine ⟨?_, ?_, ?_⟩
      · intro x
        rw [huf]
        exact hidem x
      · intro x hx
        rw [huf]
        exact hge x (by omega)
      · intro x hx
        rw [huf]
        by_cases hxo : x < m.clumps.count
        · have := hlt x hxo
          omega
        · have := hge x (by omega)
          omega
    have hkmB1 : ∀ q ∈ clumpList m.keyMap, q < c1.count := by
      intro q hq
      have := hkmB q hq
      omega
    have hintrB1 : ∀ q ∈ intr ++ internRecords f cid, q < c1.count := by
      intro q hq
      rcases List.mem_append.mp hq with hq | hq
      · have := hintrB q hq
        omega
      · simp only [internRecords, List.mem_map, List.mem_range] at hq
        obtain ⟨i, hi, rfl⟩ := hq
        exact (hcidb i (by omega)).2
    have hcidB1 : ∀ j, j < f.keys.length →
        cid (f.numInternal + (0 + j)) < c1.count := by
      intro j hj
      exact (hcidb _ (by omega)).2
    have hrootcid : ∀ i, i < f.numVertices →
        c1.uf.root (cid i) = cid i := by
      intro i hi
      rw [huf]
      exact hge _ (hcidb i hi).1
    have heqmid : ∀ r, c1.uf.root r = r →
        c1.vert r = cntRoot c1.uf (clumpList m.keyMap) r +
          cntRoot c1.uf (intr ++ internRecords f cid) r +
          cntRoot c1.uf (pendingClumps cid f.numInternal 0 f.keys) r := by
      intro r hr
      rw [cntRoot_append]
      have hint : cntRoot c1.uf (internRecords f cid) r =
          (List.range f.numInternal).countP (fun i => decide (cid i = r)) := by
        rw [internRecords, cntRoot, List.countP_map]
        refine List.countP_congr ?_
        intro i hi
        have hi' : i < f.numInternal := List.mem_range.mp hi
        simp only [Function.comp, decide_eq_true_eq]
        rw [hrootcid i (by omega)]
      have hpend : cntRoot c1.uf
          (pendingClumps cid f.numInternal 0 f.keys) r =
          (List.range f.keys.length).countP
            (fun j => decide (cid (f.numInternal + j) = r)) := by
        rw [pendingClumps_eq_map, cntRoot, List.countP_map]
        refine List.countP_congr ?_
        intro j hj
        have hj' : j < f.keys.length := List.mem_range.mp hj
        simp only [Function.comp, decide_eq_true_eq, Nat.zero_add]
        rw [hrootcid _ (by omega)]
      by_cases hzone : m.clumps.count ≤ r ∧ r < c1.count
      · obtain ⟨hz1, hz2⟩ := hzone
        have hvfresh := hfresh r hz1 hz2
        have hkm0 : cntRoot c1.uf (clumpList m.keyMap) r = 0 := by
          refine cntRoot_eq_zero ?_
          intro x hx
          have hxb := hkmB x hx
          rw [huf]
          have := hlt x hxb
          omega
        have hintr0 : cntRoot c1.uf intr r = 0 := by
          refine cntRoot_eq_zero ?_
          intro x hx
          have hxb := hintrB x hx
          rw [huf]
          have := hlt x hxb
          omega
        have hsplit := countP_range_add f.numInternal f.keys.length
          (fun i => decide (cid i = r))
        rw [hnv] at hvfresh
        rw [hvfresh, hkm0, hintr0, hint, hpend, hsplit]
        omega
      · have hout : ∀ i, i < f.numVertices → ¬ (cid i = r) := by
          intro i hi hc
          have := hcidb i hi
          rcases not_and_or.mp hzone with hz | hz <;> omega
        have hint0 : (List.range f.numInternal).countP
            (fun i => decide (cid i = r)) = 0 := by
          rw [List.countP_eq_zero]
          intro i hi
          simp only [decide_eq_true_eq]
          exact hout i (by have := List.mem_range.mp hi; omega)
        have hpend0 : (List.range f.keys.length).countP
            (fun j => decide (cid (f.numInternal + j) = r)) = 0 := by
          rw [List.countP_eq_zero]
          intro j hj
          simp only [decide_eq_true_eq]
          exact hout _ (by have := List.mem_range.mp hj; omega)
        have hrold : m.clumps.uf.root r = r := by
          rw [← huf]
          exact hr
        have hveq : c1.vert r = m.clumps.vert r := by
          refine hvertU r ?_
          rcases not_and_or.mp hzone with hz | hz
          · left
            omega
          · right
            omega
        have hold := heq r hrold
        rw [hveq, hint, hpend, hint0, hpend0, huf]
        omega
    obtain ⟨hA, hB, hC, hD, hE⟩ := updateKeyMapAux_counterInv
      (m.vertices.length + f.numInternal) f.numInternal cid f.keys 0 c1
      m.keyMap 0 [] (intr ++ internRecords f cid) hWF1 hkmB1 hintrB1
      hcidB1 hnd heqmid
    subst hadd
    refine ⟨hA, ?_, ?_, hD, hE⟩
    · intro q hq
      have h1 := hC q hq
      show q < (updateKeyMapAux (m.vertices.length + f.numInternal)
        f.numInternal cid 0 f.keys c1 m.keyMap 0 []).clumps.count
      omega
    · intro q hq
      have h1 := hintrB1 q hq
      show q < (updateKeyMapAux (m.vertices.length + f.numInternal)
        f.numInternal cid 0 f.keys c1 m.keyMap 0 []).clumps.count
      omega

theorem ingestTrace_counterInv (fs : List Fragment) :
    ∀ (m : StxxlMesh) (ext : List (VertexKey × Nat)) (intr : List Nat)
      (m' : StxxlMesh) (ext' : List (VertexKey × Nat)) (intr' : List Nat),
      (∀ f ∈ fs, f.valid) → CInv m intr →
      ingestTrace fs m ext intr = .ok (m', ext', intr') →
      CInv m' intr' := by
  induction fs with
  | nil =>
    intro m ext intr m' ext' intr' _ hinv h
    simp only [ingestTrace, Except.ok.injEq, Prod.mk.injEq] at h
    obtain ⟨h1, -, h3⟩ := h
    subst h1
    subst h3
    exact hinv
  | cons f fs ih =>
    intro m ext intr m' ext' intr' hv hinv h
    rcases hadd : m.add f with e | m1
    · simp only [ingestTrace, hadd] at h
      exact absurd h (by simp)
    · simp only [ingestTrace, hadd] at h
      exact ih _ _ _ _ _ _ (fun g hg => hv g (List.mem_cons_of_mem f hg))
        (add_counterInv (hv f (List.mem_cons_self f fs)) hinv hadd) h

/-- **C3.**  At end of ingest, for every root clump `r`, the counter
`r.vertices` equals the number of distinct external `VertexKey`s whose
component is `r`'s (the key map holds each distinct key exactly once — the
`Nodup` conjunct) plus the number of internal-vertex occurrences, across all
fragments, whose clump lies in `r`'s component. -/
theorem C3_root_vertex_counter (fs : List Fragment)
    (hv : ∀ f ∈ fs, f.valid) (r : Nat)
    (hr : (ingestState fs).clumps.uf.root r = r) :
    ((ingestState fs).keyMap.map Prod.fst).Nodup ∧
    (ingestState fs).clumps.vert r =
      cntRoot (ingestState fs).clumps.uf
        (clumpList (ingestState fs).keyMap) r +
      cntRoot (ingestState fs).clumps.uf (ingestIntern fs) r := by
  rcases htr : ingestTrace fs .start [] [] with e | ⟨m, ext, intr⟩
  · have hm : ingestState fs = .start := by
      rw [ingestState, htr]
    have hi : ingestIntern fs = [] := by
      rw [ingestIntern, htr]
    rw [hm, hi]
    exact ⟨by simp [StxxlMesh.start], rfl⟩
  · have hinv := ingestTrace_counterInv fs .start [] [] m ext intr hv
      cinv_start htr
    have hm : ingestState fs = m := by
      rw [ingestState, htr]
    have hi : ingestIntern fs = intr := by
      rw [ingestIntern, htr]
    rw [hm, hi]
    rw [hm] at hr
    exact ⟨hinv.2.2.2.1, hinv.2.2.2.2 r hr⟩

/-- Witness for `C3_root_vertex_counter`: a fragment with two internal
vertices, one external key and one triangle — the component root's counter
is 3 = 1 distinct key + 2 internal occurrences. -/
theorem C3_witness :
    (∀ f ∈ [(⟨2, [0, 1, 2], [5], [(0, 1, 2)]⟩ : Fragment)], f.valid) ∧
      (ingestState [⟨2, [0, 1, 2], [5], [(0, 1, 2)]⟩]).clumps.uf.root 0 = 0 ∧
      ((ingestState [⟨2, [0, 1, 2], [5],
        [(0, 1, 2)]⟩]).keyMap.map Prod.fst).Nodup ∧
      (ingestState [⟨2, [0, 1, 2], [5], [(0, 1, 2)]⟩]).clumps.vert 0 =
        cntRoot (ingestState [⟨2, [0, 1, 2], [5], [(0, 1, 2)]⟩]).clumps.uf
          (clumpList (ingestState [⟨2, [0, 1, 2], [5],
            [(0, 1, 2)]⟩]).keyMap) 0 +
        cntRoot (ingestState [⟨2, [0, 1, 2], [5], [(0, 1, 2)]⟩]).clumps.uf
          (ingestIntern [⟨2, [0, 1, 2], [5], [(0, 1, 2)]⟩]) 0 := by
  have hv : ∀ f ∈ [(⟨2, [0, 1, 2], [5], [(0, 1, 2)]⟩ : Fragment)],
      f.valid := by
    intro f hf
    rcases List.mem_singleton.mp hf with rfl
    intro t ht
    rcases List.mem_singleton.mp ht with rfl
    refine ⟨by decide, by decide, by decide⟩
  have hr : (ingestState
      [(⟨2, [0, 1, 2], [5], [(0, 1, 2)]⟩ : Fragment)]).clumps.uf.root 0
      = 0 := by decide
  exact ⟨hv, hr, C3_root_vertex_counter _ hv 0 hr⟩

/-! ## `StxxlMesh::write` (`src/src/mesh.cpp:819`): pruning and output -/

/-- `(cl_uint)(vertices.size() * getPruneThreshold())`: the prune threshold
is a nonnegative fraction, so the C cast truncates a nonnegative product,
i.e. takes its floor.  The threshold fraction is modelled as an exact
rational. -/
def thresholdVertices (total : Nat) (t : ℚ) : Nat := ⌊(total : ℚ) * t⌋₊

/-- The survival test of `StxxlMesh::write`:
`clumps[UnionFind::findRoot(clumps, clumpId)].vertices() >=
thresholdVertices`. -/
def Clumps.keep (c : Clumps) (thr : Nat) (cidx : Nat) : Bool :=
  decide (thr ≤ c.vert (c.uf.root cidx))

/-- `std::numeric_limits<cl_uint>::max()`, the dead-vertex marker. -/
def UINT32_MAX : Nat := 4294967295

/-- The vertex pass of `StxxlMesh::write`: emit each stored vertex whose
component survives, building `vertexRemap` (surviving vertices get the next
dense output index, pruned ones get `UINT32_MAX`).
Returns (output vertices, vertexRemap, nextVertex). -/
def buildVertexRemap (c : Clumps) (thr : Nat) (vs : List (Nat × Nat)) :
    List Nat × List Nat × Nat :=
  vs.foldl
    (fun acc v =>
      if c.keep thr v.2
      then (acc.1 ++ [v.1], acc.2.1 ++ [acc.2.2], acc.2.2 + 1)
      else (acc.1, acc.2.1 ++ [UINT32_MAX], acc.2.2))
    ([], [], 0)

/-- The body of `StxxlMesh::write` once `thresholdVertices` has been
computed: run the vertex pass, then the triangle pass (rewrite all three
indices through `vertexRemap`, emit the triangle iff its first rewritten
index is not `UINT32_MAX`).  Returns the output vertex payloads and
triangles. -/
def StxxlMesh.writeThr (m : StxxlMesh) (thr : Nat) :
    List Nat × List Triangle :=
  let acc := buildVertexRemap m.clumps thr m.vertices
  let outTris := m.triangles.filterMap fun t =>
    let r0 := acc.2.1.getD t.1 0
    let r1 := acc.2.1.getD t.2.1 0
    let r2 := acc.2.1.getD t.2.2 0
    if r0 ≠ UINT32_MAX then some (r0, r1, r2) else none
  (acc.1, outTris)

/-- `StxxlMesh::write`: compute
`thresholdVertices = (cl_uint)(vertices.size() * getPruneThreshold())` and
run the two passes. -/
def StxxlMesh.write (m : StxxlMesh) (pruneThreshold : ℚ) :
    List Nat × List Triangle :=
  m.writeThr (thresholdVertices m.vertices.length pruneThreshold)

/-- The 100-vertex fragment of scenario S4: a chain of 98 triangles over 100
internal vertices, no externals. -/
def s4FragBig : Fragment :=
  ⟨100, List.range 100, [],
    (List.range 98).map (fun i => (i, i + 1, i + 2))⟩

/-- The 3-vertex fragment of scenario S4: one triangle over 3 internal
vertices, no externals. -/
def s4FragSmall : Fragment := ⟨3, [100, 101, 102], [], [(0, 1, 2)]⟩

theorem thresholdVertices_scenario : thresholdVertices 103 (0.05 : ℚ) = 5 := by
  rw [thresholdVertices]
  rw [show (0.05 : ℚ) = 1 / 20 by norm_num]
  rw [show ((103 : ℕ) : ℚ) * (1 / 20) = ((103 : ℕ) : ℚ) / ((20 : ℕ) : ℚ) by
    push_cast
    ring]
  rw [Nat.floor_div_nat, Nat.floor_natCast]

set_option maxRecDepth 40000 in
/-- **C6.**  For one chunk with two disjoint components of 100 and 3
vertices and `pruneThreshold = 0.05` (so `thresholdVertices = 5`), the
written output contains exactly the 100 vertices of the surviving component,
the 3-vertex component is dropped, and no triangle index in the output
references a pruned vertex (all 98 output triangles index below 100). -/
theorem C6_prune_scenario :
    thresholdVertices 103 (0.05 : ℚ) = 5 ∧
      ((ingestState [s4FragBig, s4FragSmall]).write (0.05 : ℚ)).1
        = List.range 100 ∧
      (((ingestState [s4FragBig, s4FragSmall]).write (0.05 : ℚ)).2.length
        = 98 ∧
      ((ingestState [s4FragBig, s4FragSmall]).write (0.05 : ℚ)).2.all
        (fun t => decide (t.1 < 100) && decide (t.2.1 < 100) &&
          decide (t.2.2 < 100)) = true) := by
  have hlen : (ingestState [s4FragBig, s4FragSmall]).vertices.length
      = 103 := by decide
  have hwr : (ingestState [s4FragBig, s4FragSmall]).write (0.05 : ℚ)
      = (ingestState [s4FragBig, s4FragSmall]).writeThr 5 := by
    rw [StxxlMesh.write, hlen, thresholdVertices_scenario]
  rw [hwr]
  refine ⟨thresholdVertices_scenario, by decide, by decide, by decide⟩

/-- **C7.**  Pruning is monotone in the threshold: for `t1 ≤ t2` every
component retained under `t2` (its root's vertex counter at least
`floor(t2 * total)`) is retained under `t1`; and `pruneThreshold = 0`
retains every component. -/
theorem C7_prune_monotone (c : Clumps) (total : Nat) (t1 t2 : ℚ)
    (cidx : Nat) (h : t1 ≤ t2) :
    (c.keep (thresholdVertices total t2) cidx = true →
      c.keep (thresholdVertices total t1) cidx = true) ∧
    c.keep (thresholdVertices total 0) cidx = true := by
  constructor
  · intro hk
    rw [Clumps.keep, decide_eq_true_eq] at hk ⊢
    have hmono : thresholdVertices total t1 ≤ thresholdVertices total t2 := by
      refine Nat.floor_le_floor ?_
      have h0 : (0 : ℚ) ≤ (total : ℚ) := by positivity
      exact mul_le_mul_of_nonneg_left h h0
    omega
  · rw [Clumps.keep, decide_eq_true_eq]
    have : thresholdVertices total 0 = 0 := by
      simp [thresholdVertices]
    omega

/-- Witness for `C7_prune_monotone` at `t1 = 0 ≤ t2 = 1/2` on the ingested
S4 state. -/
theorem C7_witness :
    ((0 : ℚ) ≤ 1 / 2) ∧
      (((ingestState [s4FragBig, s4FragSmall]).clumps.keep
          (thresholdVertices 103 (1 / 2)) 0 = true →
        (ingestState [s4FragBig, s4FragSmall]).clumps.keep
          (thresholdVertices 103 (0 : ℚ)) 0 = true) ∧
      (ingestState [s4FragBig, s4FragSmall]).clumps.keep
        (thresholdVertices 103 (0 : ℚ)) 0 = true) :=
  ⟨by norm_num,
    C7_prune_monotone (ingestState [s4FragBig, s4FragSmall]).clumps 103
      0 (1 / 2) 0 (by norm_num)⟩

/-! ## Temporary-file triangle index encoding (`OOCMesher`, spec 4.5.4 / 7)

Modelled from the spec: `OOCMesher`'s implementation file is absent from
`src/`; only its header (`src/unnamed/part_002`) is present.  The header
documents the encoding ("Internal vertices use clump-local coordinates,
while external vertices use an index that counts over the external indices
of the chunk, with all bits inverted (operator ~) to distinguish them") and
`rewriteTriangles` documents the decode ("Each output index is compared to
externalBoundary.  If it is greater (indicating an external vertex), it is
bit-wise negated...").  The boundary value `2^31` and the `ChunkTooLarge`
guard are taken from the spec. -/

/-- Modelled from the spec: the implementation-wide internal/external
boundary `B = 2^31` of the temp-file triangle index encoding. -/
def encBound : Nat := 2 ^ 31

/-- Bit-wise complement `operator ~` on a 32-bit unsigned index. -/
def compl32 (i : Nat) : Nat := 2 ^ 32 - 1 - i

/-- A reference stored in a temp-file triangle: either a clump-local
internal vertex index or a chunk-local external vertex index. -/
inductive TmpRef : Type where
  | intVert (j : Nat) : TmpRef
  | extVert (e : Nat) : TmpRef
deriving DecidableEq

/-- Modelled from the spec: validity of a reference against a chunk with
`nExt` external vertices and a clump with `nInt` internal vertices. -/
def TmpRef.valid (nExt nInt : Nat) : TmpRef → Bool
  | .intVert j => decide (j < nInt)
  | .extVert e => decide (e < nExt)

/-- Modelled from the spec: encode a reference into a temp-file triangle
index — internal indices verbatim, external indices bit-complemented. -/
def encodeTmp : TmpRef → Nat
  | .intVert j => j
  | .extVert e => compl32 e

/-- Modelled from the spec: decode a temp-file triangle index — indices
below the boundary are internal, the rest decode by complement. -/
def decodeTmp (i : Nat) : TmpRef :=
  if i < encBound then .intVert i else .extVert (compl32 i)

/-- Modelled from the spec: the `ChunkTooLarge` guard — fatal whenever a
chunk's external count plus a clump's internal count reaches `2^31`. -/
def chunkTooLarge (nExt nInt : Nat) : Bool := decide (encBound ≤ nExt + nInt)

/-- Whether a reference is to a clump-local internal vertex. -/
def TmpRef.isIntVert : TmpRef → Bool
  | .intVert _ => true
  | .extVert _ => false

/-- **C5.**  When the `ChunkTooLarge` guard passes (external count plus
internal count below `2^31`), the temp-file triangle index encoding is
unambiguous: every valid reference round-trips through encode/decode, and
an encoded index denotes an internal vertex iff it is below `2^31`
(otherwise its bit-wise complement is the external index).  The guard
fires exactly when the external-plus-internal sum reaches `2^31`. -/
theorem C5_tmp_index_encoding (nExt nInt : Nat) (r : TmpRef)
    (hguard : chunkTooLarge nExt nInt = false)
    (hr : r.valid nExt nInt = true) :
    decodeTmp (encodeTmp r) = r ∧
      (decide (encodeTmp r < encBound) = r.isIntVert) ∧
      (chunkTooLarge nExt nInt = true ↔ encBound ≤ nExt + nInt) := by
  rw [chunkTooLarge, decide_eq_false_iff_not, not_le] at hguard
  refine ⟨?_, ?_, by rw [chunkTooLarge]; exact decide_eq_true_iff⟩
  · cases r with
    | intVert j =>
      rw [TmpRef.valid, decide_eq_true_eq] at hr
      rw [encodeTmp, decodeTmp, if_pos]
      rw [encBound] at hguard ⊢
      omega
    | extVert e =>
      rw [TmpRef.valid, decide_eq_true_eq] at hr
      rw [encodeTmp, decodeTmp, if_neg]
      · rw [compl32, compl32]
        rw [encBound] at hguard
        congr 1
        omega
      · rw [compl32, encBound] at *
        omega
  · cases r with
    | intVert j =>
      rw [TmpRef.valid, decide_eq_true_eq] at hr
      rw [encodeTmp, TmpRef.isIntVert, decide_eq_true_eq]
      rw [encBound] at hguard ⊢
      omega
    | extVert e =>
      rw [TmpRef.valid, decide_eq_true_eq] at hr
      rw [encodeTmp, TmpRef.isIntVert, compl32, decide_eq_false_iff_not, not_lt]
      rw [encBound] at hguard ⊢
      omega

/-- Witness for `C5_tmp_index_encoding`: a chunk with 2 externals and a
clump with 3 internals, decoding the encoding of external index 1. -/
theorem C5_witness :
    chunkTooLarge 2 3 = false ∧
      TmpRef.valid 2 3 (.extVert 1) = true ∧
      (decodeTmp (encodeTmp (.extVert 1)) = .extVert 1 ∧
        (decide (encodeTmp (.extVert 1) < encBound)
          = TmpRef.isIntVert (.extVert 1)) ∧
        (chunkTooLarge 2 3 = true ↔ encBound ≤ 2 + 3)) :=
  ⟨by decide, by decide,
    C5_tmp_index_encoding 2 3 (.extVert 1) (by decide) (by decide)⟩

/-! ## Chunk table density in the generation axis (`OOCMesher::chunks`)

Modelled from the spec: `OOCMesher`'s implementation file is absent from
`src/`.  The header (`src/unnamed/part_002`) documents the member:
"All chunks seen so far.  This is indexed by the generation number in the
chunk ID.  If non-contiguous IDs are found, there will be
default-constructed chunks plugging the holes." -/

/-- A chunk as seen by the write pass, reduced to its vertex and triangle
totals. -/
structure GenChunk : Type where
  nVertices : Nat
  nTriangles : Nat
deriving DecidableEq

/-- A default-constructed chunk: zero vertices, zero triangles. -/
def GenChunk.emptyChunk : GenChunk := ⟨0, 0⟩

/-- Look up the chunk of a generation; out of range reads as a
default-constructed chunk. -/
def chunkAt : List GenChunk → Nat → GenChunk
  | [], _ => GenChunk.emptyChunk
  | c :: _, 0 => c
  | _ :: cs, g + 1 => chunkAt cs g

/-- Modelled from the spec: extend the chunk table with default-constructed
chunks so that it covers generation `gen`. -/
def ensureChunks (cs : List GenChunk) (gen : Nat) : List GenChunk :=
  cs ++ List.replicate (gen + 1 - cs.length) GenChunk.emptyChunk

/-- Modelled from the spec: ingest one fragment `(generation, nv, nt)` —
pad the table up to its generation, then accumulate its totals there. -/
def addGen (cs : List GenChunk) (f : Nat × Nat × Nat) : List GenChunk :=
  let cs2 := ensureChunks cs f.1
  cs2.set f.1 ⟨(chunkAt cs2 f.1).nVertices + f.2.1,
    (chunkAt cs2 f.1).nTriangles + f.2.2⟩

/-- The chunk table after ingesting a fragment sequence. -/
def ingestGens (fs : List (Nat × Nat × Nat)) : List GenChunk :=
  fs.foldl addGen []

/-- Whether any fragment of the sequence carries generation `g`. -/
def seenGen (fs : List (Nat × Nat × Nat)) (g : Nat) : Bool :=
  fs.any (fun f => f.1 == g)

theorem chunkAt_set_ne (cs : List GenChunk) (i j : Nat) (a : GenChunk)
    (h : i ≠ j) : chunkAt (cs.set i a) j = chunkAt cs j := by
  induction cs generalizing i j with
  | nil => rfl
  | cons c cs ih =>
    cases i with
    | zero =>
      cases j with
      | zero => exact absurd rfl h
      | succ j => rfl
    | succ i =>
      cases j with
      | zero => rfl
      | succ j => exact ih i j (fun hij => h (by omega))

theorem chunkAt_append_emptyChunk (cs ds : List GenChunk) (g : Nat)
    (hds : ∀ x, chunkAt ds x = GenChunk.emptyChunk) :
    chunkAt (cs ++ ds) g
      = if g < cs.length then chunkAt cs g else GenChunk.emptyChunk := by
  induction cs generalizing g with
  | nil => simp [chunkAt, hds g]
  | cons c cs ih =>
    cases g with
    | zero => simp [chunkAt]
    | succ g =>
      rw [List.cons_append]
      show chunkAt (cs ++ ds) g = _
      rw [ih g]
      by_cases hlt : g < cs.length
      · rw [if_pos hlt, if_pos (by simpa using Nat.succ_lt_succ hlt)]
        rfl
      · rw [if_neg hlt, if_neg (by simp; omega)]

theorem chunkAt_replicate_emptyChunk (n g : Nat) :
    chunkAt (List.replicate n GenChunk.emptyChunk) g
      = GenChunk.emptyChunk := by
  induction n generalizing g with
  | zero => rfl
  | succ n ih =>
    cases g with
    | zero => rfl
    | succ g => exact ih g

theorem chunkAt_oob (cs : List GenChunk) (g : Nat)
    (h : cs.length ≤ g) : chunkAt cs g = GenChunk.emptyChunk := by
  induction cs generalizing g with
  | nil => rfl
  | cons c cs ih =>
    cases g with
    | zero => simp at h
    | succ g => exact ih g (by simpa using h)

theorem chunkAt_addGen_ne (cs : List GenChunk) (f : Nat × Nat × Nat)
    (g : Nat) (h : g ≠ f.1) : chunkAt (addGen cs f) g = chunkAt cs g := by
  rw [addGen]
  rw [chunkAt_set_ne _ _ _ _ (fun hef => h hef.symm)]
  rw [ensureChunks, chunkAt_append_emptyChunk _ _ _
    (fun x => chunkAt_replicate_emptyChunk _ x)]
  by_cases hlt : g < cs.length
  · rw [if_pos hlt]
  · rw [if_neg hlt, chunkAt_oob cs g (by omega)]

theorem foldl_addGen_unseen (fs : List (Nat × Nat × Nat))
    (cs : List GenChunk) (g : Nat) (h : seenGen fs g = false) :
    chunkAt (fs.foldl addGen cs) g = chunkAt cs g := by
  induction fs generalizing cs with
  | nil => rfl
  | cons f fs ih =>
    rw [seenGen, List.any_cons, Bool.or_eq_false_iff] at h
    rw [List.foldl_cons, ih _ h.2, chunkAt_addGen_ne]
    intro hg
    rw [hg] at h
    simp at h

theorem addGen_length (cs : List GenChunk) (f : Nat × Nat × Nat) :
    (addGen cs f).length = max cs.length (f.1 + 1) := by
  rw [addGen]
  rw [List.length_set, ensureChunks, List.length_append,
    List.length_replicate]
  omega

theorem foldl_addGen_length_ge (fs : List (Nat × Nat × Nat))
    (cs : List GenChunk) : cs.length ≤ (fs.foldl addGen cs).length := by
  induction fs generalizing cs with
  | nil => exact Nat.le_refl _
  | cons f fs ih =>
    rw [List.foldl_cons]
    refine Nat.le_trans ?_ (ih (addGen cs f))
    rw [addGen_length]
    omega

theorem foldl_addGen_length_mem (fs : List (Nat × Nat × Nat))
    (f : Nat × Nat × Nat) (hf : f ∈ fs) :
    ∀ cs : List GenChunk, f.1 < (fs.foldl addGen cs).length := by
  induction fs with
  | nil => simp at hf
  | cons f0 fs ih =>
    intro cs
    rw [List.foldl_cons]
    rcases List.mem_cons.mp hf with heq | hmem
    · subst heq
      refine Nat.lt_of_lt_of_le ?_ (foldl_addGen_length_ge fs (addGen cs f))
      rw [addGen_length]
      omega
    · exact ih hmem (addGen cs f0)

/-- **C9.**  The chunk table is dense in the generation axis: every
generation never seen in the fragment sequence reads as a
default-constructed chunk, every seen generation indexes into the table,
and in particular fragments for generations 0 and 2 produce a three-entry
table whose middle chunk has zero vertices and zero triangles. -/
theorem C9_chunk_density (fs : List (Nat × Nat × Nat)) (g : Nat)
    (hseen : seenGen fs g = false) :
    chunkAt (ingestGens fs) g = GenChunk.emptyChunk ∧
      (∀ f ∈ fs, f.1 < (ingestGens fs).length) ∧
      ingestGens [(0, 100, 98), (2, 3, 1)]
        = [⟨100, 98⟩, GenChunk.emptyChunk, ⟨3, 1⟩] := by
  refine ⟨?_, ?_, by decide⟩
  · rw [ingestGens, foldl_addGen_unseen fs [] g hseen]
    rfl
  · intro f hf
    exact foldl_addGen_length_mem fs f hf []

/-- Witness for `C9_chunk_density`: generations 0 and 2 seen, generation 1
unseen and read as a default-constructed chunk. -/
theorem C9_witness :
    seenGen [(0, 100, 98), (2, 3, 1)] 1 = false ∧
      (chunkAt (ingestGens [(0, 100, 98), (2, 3, 1)]) 1
          = GenChunk.emptyChunk ∧
        (∀ f ∈ [(0, 100, 98), (2, 3, 1)],
          f.1 < (ingestGens [(0, 100, 98), (2, 3, 1)]).length) ∧
        ingestGens [(0, 100, 98), (2, 3, 1)]
          = [⟨100, 98⟩, GenChunk.emptyChunk, ⟨3, 1⟩]) :=
  ⟨by decide, C9_chunk_density [(0, 100, 98), (2, 3, 1)] 1 (by decide)⟩

/-! ## `BigMesh`: the two-pass counting/writing scheme
(`src/src/mesh.cpp:579`) -/

/-- The key-insertion loop of `BigMesh::count`
(`keyMap.insert(make_pair(key, ExternalVertexData(0, 0))).second`): walk the
fragment's external keys, inserting a dummy-valued binding for each key not
yet present and counting how many external vertices are really new.
Returns the grown key map and `newKeys`. -/
def countKeysAux : List VertexKey → KeyMap → Nat → KeyMap × Nat
  | [], km, nk => (km, nk)
  | k :: ks, km, nk =>
    match lookupKey km k with
    | none => countKeysAux ks (km ++ [(k, ⟨0, 0⟩)]) (nk + 1)
    | some _ => countKeysAux ks km nk

/-- The state `BigMesh::count` (pass 0) accumulates: the key map and the
running totals `nVertices`, `nTriangles`, plus a ghost list of the per-call
`newKeys` values. -/
structure BigMeshCount where
  keyMap : KeyMap
  nVertices : Nat
  nTriangles : Nat
  newKeysList : List Nat

/-- The counting state at construction: zero totals, empty key map. -/
def BigMesh.countStart : BigMeshCount := ⟨[], 0, 0, []⟩

/-- `BigMesh::count` on one fragment: `nTriangles += numIndices / 3`,
`nVertices += numInternalVertices`, insert the external keys, then
`nVertices += newKeys`. -/
def countFrag (s : BigMeshCount) (f : Fragment) : BigMeshCount :=
  let r := countKeysAux f.keys s.keyMap 0
  ⟨r.1, s.nVertices + f.numInternal + r.2,
    s.nTriangles + f.triangles.length, s.newKeysList ++ [r.2]⟩

/-- Pass 0 over a fragment sequence. -/
def countPass (fs : List Fragment) : BigMeshCount :=
  fs.foldl countFrag BigMesh.countStart

/-- The state `BigMesh::add` (pass 1) accumulates: the clump table and key
map, the write cursors `nextVertex`, `nextTriangle`, the `(start, count)`
pair of every `writer.writeVertices` / `writer.writeTriangles` call, and a
ghost list of the per-call `newKeys` values. -/
structure BigMeshAdd where
  clumps : Clumps
  keyMap : KeyMap
  nextVertex : Nat
  nextTriangle : Nat
  vertexWrites : List (Nat × Nat)
  triangleWrites : List (Nat × Nat)
  newKeysList : List Nat

/-- The writing state as `outputFunctor(1)` resets it: cursors zeroed and
`keyMap.clear()` (the clump table was untouched by pass 0). -/
def BigMesh.addStart : BigMeshAdd := ⟨Clumps.start, [], 0, 0, [], [], []⟩

/-- `BigMesh::add` on one fragment: local components, key-map update with
`vertexOffset = nextVertex + numInternalVertices`, write
`numInternalVertices + newKeys` vertices at `nextVertex` and the fragment's
triangles at `nextTriangle`, then advance both cursors. -/
def addFrag (s : BigMeshAdd) (f : Fragment) : Except String BigMeshAdd :=
  match computeLocalComponents f.numVertices f.triangles s.clumps with
  | .error e => .error e
  | .ok (c1, cid) =>
    let ukm := updateKeyMap (s.nextVertex + f.numInternal) f.numInternal
      cid f.keys c1 s.keyMap
    .ok ⟨ukm.clumps, ukm.keyMap,
      s.nextVertex + f.numInternal + ukm.newKeys,
      s.nextTriangle + f.triangles.length,
      s.vertexWrites ++ [(s.nextVertex, f.numInternal + ukm.newKeys)],
      s.triangleWrites ++ [(s.nextTriangle, f.triangles.length)],
      s.newKeysList ++ [ukm.newKeys]⟩

/-- Pass 1 over a fragment sequence. -/
def addPass : List Fragment → BigMeshAdd → Except String BigMeshAdd
  | [], s => .ok s
  | f :: fs, s =>
    match addFrag s f with
    | .error e => .error e
    | .ok s2 => addPass fs s2

/-- Total record count of a list of `(start, count)` writer calls. -/
def totalWritten (ws : List (Nat × Nat)) : Nat := (ws.map Prod.snd).sum

theorem lookupKey_eq_none_iff (km : KeyMap) (k : VertexKey) :
    lookupKey km k = none ↔ k ∉ km.map Prod.fst := by
  induction km with
  | nil => simp [lookupKey]
  | cons e m ih =>
    rw [lookupKey]
    by_cases h : k = e.1
    · simp [h]
    · rw [if_neg h, ih]
      simp [h]

theorem countKeysAux_matches (vOff nInt : Nat) (cid : Nat → Nat)
    (ks : List VertexKey) :
    ∀ (i nk : Nat) (tbl : List Nat) (c : Clumps) (km₀ km₁ : KeyMap),
      km₀.map Prod.fst = km₁.map Prod.fst →
      (countKeysAux ks km₀ nk).2
          = (updateKeyMapAux vOff nInt cid i ks c km₁ nk tbl).newKeys ∧
        (countKeysAux ks km₀ nk).1.map Prod.fst
          = (updateKeyMapAux vOff nInt cid i ks c km₁ nk
              tbl).keyMap.map Prod.fst := by
  induction ks with
  | nil =>
    intro i nk tbl c km₀ km₁ hkm
    exact ⟨rfl, hkm⟩
  | cons k ks ih =>
    intro i nk tbl c km₀ km₁ hkm
    have hnone : lookupKey km₀ k = none ↔ lookupKey km₁ k = none := by
      rw [lookupKey_eq_none_iff, lookupKey_eq_none_iff, hkm]
    cases hlk₀ : lookupKey km₀ k with
    | none =>
      have hlk₁ : lookupKey km₁ k = none := hnone.mp hlk₀
      simp only [countKeysAux, updateKeyMapAux, hlk₀, hlk₁]
      refine ih _ _ _ _ _ _ ?_
      simp [hkm]
    | some ed₀ =>
      have hlk₁ : ∃ ed₁, lookupKey km₁ k = some ed₁ := by
        cases h₁ : lookupKey km₁ k with
        | none => rw [hnone.mpr h₁] at hlk₀; cases hlk₀
        | some ed₁ => exact ⟨ed₁, rfl⟩
      rcases hlk₁ with ⟨ed₁, hlk₁⟩
      simp only [countKeysAux, updateKeyMapAux, hlk₀, hlk₁]
      exact ih _ _ _ _ _ _ hkm

/-- The between-fragment relation of the two passes: equal key lists, and
pass 0's totals equal pass 1's cursors, cumulative write counts and ghost
`newKeys` lists. -/
def PassInv (s₀ : BigMeshCount) (s₁ : BigMeshAdd) : Prop :=
  s₀.keyMap.map Prod.fst = s₁.keyMap.map Prod.fst ∧
    s₀.nVertices = s₁.nextVertex ∧
    s₀.nTriangles = s₁.nextTriangle ∧
    totalWritten s₁.vertexWrites = s₁.nextVertex ∧
    totalWritten s₁.triangleWrites = s₁.nextTriangle ∧
    s₀.newKeysList = s₁.newKeysList

theorem passInv_start : PassInv BigMesh.countStart BigMesh.addStart :=
  ⟨rfl, rfl, rfl, rfl, rfl, rfl⟩

theorem addFrag_passInv {s₀ : BigMeshCount} {s₁ s₁' : BigMeshAdd}
    {f : Fragment} (hinv : PassInv s₀ s₁)
    (hadd : addFrag s₁ f = .ok s₁') : PassInv (countFrag s₀ f) s₁' := by
  rw [addFrag] at hadd
  rcases hcc : computeLocalComponents f.numVertices f.triangles s₁.clumps with
    e | ⟨c1, cid⟩ <;> rw [hcc] at hadd
  · cases hadd
  · injection hadd with hadd
    subst hadd
    have hmatch := countKeysAux_matches (s₁.nextVertex + f.numInternal)
      f.numInternal cid f.keys 0 0 [] c1 s₀.keyMap s₁.keyMap hinv.1
    rw [countFrag, PassInv]
    dsimp only
    refine ⟨hmatch.2, ?_, ?_, ?_, ?_, ?_⟩
    · show s₀.nVertices + f.numInternal + (countKeysAux f.keys s₀.keyMap 0).2
        = s₁.nextVertex + f.numInternal + _
      rw [hmatch.1, hinv.2.1]
      rfl
    · show s₀.nTriangles + f.triangles.length
        = s₁.nextTriangle + f.triangles.length
      rw [hinv.2.2.1]
    · show totalWritten (s₁.vertexWrites ++ [_]) = _
      rw [totalWritten, List.map_append, List.sum_append]
      show totalWritten s₁.vertexWrites + (f.numInternal + _ + 0) = _
      rw [hinv.2.2.2.1]
      omega
    · show totalWritten (s₁.triangleWrites ++ [_]) = _
      rw [totalWritten, List.map_append, List.sum_append]
      show totalWritten s₁.triangleWrites + (f.triangles.length + 0) = _
      rw [hinv.2.2.2.2.1]
      omega
    · show s₀.newKeysList ++ [(countKeysAux f.keys s₀.keyMap 0).2]
        = s₁.newKeysList ++ [_]
      rw [hmatch.1, hinv.2.2.2.2.2]
      rfl

theorem addPass_passInv (fs : List Fragment) :
    ∀ (s₀ : BigMeshCount) (s₁ s₁' : BigMeshAdd), PassInv s₀ s₁ →
      addPass fs s₁ = .ok s₁' → PassInv (fs.foldl countFrag s₀) s₁' := by
  induction fs with
  | nil =>
    intro s₀ s₁ s₁' hinv hpass
    injection hpass with hpass
    subst hpass
    exact hinv
  | cons f fs ih =>
    intro s₀ s₁ s₁' hinv hpass
    rw [addPass] at hpass
    rcases hadd : addFrag s₁ f with e | s₂ <;> rw [hadd] at hpass
    · cases hpass
    · exact ih _ _ _ (addFrag_passInv hinv hadd) hpass

/-- **C10.**  For any fragment sequence presented identically to both
passes of `BigMesh`, if the writing pass (pass 1, from cleared key map and
zeroed cursors) succeeds, the totals `nVertices` and `nTriangles` computed
by the counting pass (pass 0) equal the total number of vertices and
triangles actually written by pass 1's writer calls; the per-fragment
`newKeys` values of the two passes coincide, so the sizes declared to the
writer exactly match the data written. -/
theorem C10_two_pass_totals (fs : List Fragment) (s : BigMeshAdd)
    (h : addPass fs BigMesh.addStart = .ok s) :
    (countPass fs).nVertices = totalWritten s.vertexWrites ∧
      (countPass fs).nTriangles = totalWritten s.triangleWrites ∧
      (countPass fs).nVertices = s.nextVertex ∧
      (countPass fs).nTriangles = s.nextTriangle ∧
      (countPass fs).newKeysList = s.newKeysList := by
  have hinv := addPass_passInv fs BigMesh.countStart BigMesh.addStart s
    passInv_start h
  rw [countPass]
  refine ⟨?_, ?_, hinv.2.1, hinv.2.2.1, hinv.2.2.2.2.2⟩
  · rw [hinv.2.1, hinv.2.2.2.1]
  · rw [hinv.2.2.1, hinv.2.2.2.2.1]

/-- The C10 witness fragment: one internal vertex, one external key, one
triangle. -/
def c10Frag : Fragment := ⟨1, [10, 20], [7], [(0, 1, 1)]⟩

/-- The pass-1 state after the C10 witness fragment. -/
def c10AddState : BigMeshAdd :=
  match addPass [c10Frag] BigMesh.addStart with
  | .error _ => BigMesh.addStart
  | .ok s => s

/-- Witness for `C10_two_pass_totals` on the single-fragment sequence
`[c10Frag]`. -/
theorem C10_witness :
    addPass [c10Frag] BigMesh.addStart = .ok c10AddState ∧
      ((countPass [c10Frag]).nVertices
          = totalWritten c10AddState.vertexWrites ∧
        (countPass [c10Frag]).nTriangles
          = totalWritten c10AddState.triangleWrites ∧
        (countPass [c10Frag]).nVertices = c10AddState.nextVertex ∧
        (countPass [c10Frag]).nTriangles = c10AddState.nextTriangle ∧
        (countPass [c10Frag]).newKeysList = c10AddState.newKeysList) :=
  ⟨rfl, C10_two_pass_totals [c10Frag] c10AddState rfl⟩

end MLSGPU
